import Mathlib

/-!
A verification development for `pyphi/compute/parallel.py`: a map-reduce
engine supporting sequential and parallel execution, short-circuiting,
progress reporting and cross-process failure propagation.

The embedding is shallow:

* Python values that may be `None` are modelled as `Option`-typed values
  (`none` models Python `None`).  In particular the sentinel
  `POISON_PILL = None` is modelled by `none`, and a `compute` result of
  `None` is *indistinguishable* from the sentinel, exactly as in Python.
* Exceptions are modelled with `Except`: a user function that may raise
  returns `Except ε ·`.
* The values travelling on the result queue (`out_queue`) are modelled by
  `QVal`: either the poison pill (`None`), an `ExceptionWrapper`, or an
  ordinary (non-`None`) value.  The orchestrator's dispatch in
  `MapReduce.run_parallel` tests `r is POISON_PILL` and
  `isinstance(r, ExceptionWrapper)` in that order, which is exactly a
  case split on `QVal`.
* Side effects that the claims talk about (progress-bar updates and
  closing, queue puts, teardown actions of `finish_parallel`) are
  recorded as explicit event lists (`Ev`).
* The concurrent parallel run is modelled twice, at two levels:
  - `run_parallel` is the orchestrator's own control flow
    (`MapReduce.run_parallel` + `MapReduce.finish_parallel`), as a
    function of the sequence of envelopes that `out_queue.get()` returns;
  - `MStep` is a small-step interleaving semantics of the whole system
    (task queue, result queue, worker processes, orchestrator), where a
    worker's get/compute/put cycle is one atomic step.
-/

namespace PyPhi

/-- `get_num_processes` from `parallel.py`, as a pure function of the
configured `config.NUMBER_OF_CORES` value and `multiprocessing.cpu_count()`.
The branch order is exactly the source's: zero check, too-large check,
negative resolution, otherwise return unchanged. -/
def get_num_processes (numberOfCores cpuCount : Int) : Except String Int :=
  if numberOfCores = 0 then
    .error "Invalid NUMBER_OF_CORES; value may not be 0."
  else if numberOfCores > cpuCount then
    .error "Invalid NUMBER_OF_CORES; value must be less than or equal to the available number of cores."
  else if numberOfCores < 0 then
    let num := cpuCount + numberOfCores + 1
    if num ≤ 0 then
      .error "Invalid NUMBER_OF_CORES; negative value is too negative."
    else
      .ok num
  else
    .ok numberOfCores

/-- `ExceptionWrapper`: a picklable wrapper holding the exception and the
traceback captured at wrap time (`tblib.Traceback`). -/
structure ExceptionWrapper (ε τ : Type) where
  exception : ε
  tb : τ
deriving DecidableEq

/-- `ExceptionWrapper.reraise` re-raises the *original* exception (with its
origin traceback attached); it does not create a new exception. -/
def ExceptionWrapper.reraise {ε τ : Type} (w : ExceptionWrapper ε τ) : ε :=
  w.exception

/-- `POISON_PILL = None`.  On the task queue it means "no more work"; on the
result queue it means "worker finished". -/
def POISON_PILL {α : Type} : Option α := none

/-- A Python value travelling on `out_queue`.  Python `None` *is* the poison
pill (`pill`); an `ExceptionWrapper` instance is `exc`; any other value is
`val`.  This is the case split `r is POISON_PILL` /
`isinstance(r, ExceptionWrapper)` / else performed by `run_parallel`. -/
inductive QVal (β ε τ : Type) where
  | pill
  | exc (w : ExceptionWrapper ε τ)
  | val (b : β)
deriving DecidableEq

/-- Place a `compute` return value (a Python value that may be `None`) on the
result queue.  A `None` result becomes the poison pill — there is no tagging
in the source, so the two are the same queue value. -/
def QVal.ofVal {β ε τ : Type} : Option β → QVal β ε τ
  | none => .pill
  | some b => .val b

/-- Is this queue value an `ExceptionWrapper`? -/
def QVal.isExc {β ε τ : Type} : QVal β ε τ → Bool
  | .exc _ => true
  | _ => false

/-- `MapReduce.worker`: the loop `for obj in iter(in_queue.get, POISON_PILL)`.
The argument list is the sequence of values this worker's calls to
`in_queue.get()` return (an empty list means the worker is still blocked in
`get`).  On the pill it puts the pill on `out_queue` and returns; on a work
item it puts `compute(obj)`; if `compute` raises it puts
`ExceptionWrapper(e)` and the loop terminates without a completion pill.
`tbcap` models capturing the origin traceback via `sys.exc_info()`. -/
def worker {α β ε τ : Type} (compute : Option α → Except ε (Option β))
    (tbcap : ε → τ) : List (Option α) → List (QVal β ε τ)
  | [] => []
  | none :: _ => [.pill]
  | some a :: rest =>
    match compute (some a) with
    | .ok v => QVal.ofVal v :: worker compute tbcap rest
    | .error e => [.exc ⟨e, tbcap e⟩]

/-- `self.tasks = chain(self.iterable, [POISON_PILL] * self.num_processes)`:
the logical task stream, the input sequence followed by one pill per
worker process. -/
def taskStream {α : Type} (iterable : List (Option α)) (numProcesses : ℕ) :
    List (Option α) :=
  iterable ++ List.replicate numProcesses POISON_PILL

/-- The body of `MapReduce.initialize_tasks` (renamed: `initTasks`): enqueue
`islice(self.tasks, Q_MAX_SIZE)` — the first `qMax` elements of the task
stream — and keep the remainder of the iterator for later release.  Returns
(enqueued prefix, remaining iterator). -/
def initTasks {α : Type} (qMax : ℕ) (iterable : List (Option α))
    (numProcesses : ℕ) : List (Option α) × List (Option α) :=
  ((taskStream iterable numProcesses).take qMax,
   (taskStream iterable numProcesses).drop qMax)

/-- `Q_MAX_SIZE = multiprocessing.synchronize.SEM_VALUE_MAX`; this is the
Linux value.  The general definitions and theorems take the ceiling as a
parameter `qMax`, since the constant is platform-defined. -/
def Q_MAX_SIZE : ℕ := 2147483647

/-- Observable side effects of a run: a progress-bar update, the progress
bar being closed, a `put` on the task queue, and the teardown actions of
`finish_parallel` (log-queue pill, log-thread join, closing the three
queues, terminating a worker process). -/
inductive Ev (α : Type) where
  | update
  | closeProgress
  | put (t : Option α)
  | logPill
  | logJoin
  | closeLogQ
  | closeInQ
  | closeOutQ
  | terminate
deriving DecidableEq

/-- Is this event a task-queue `put`? -/
def Ev.isPut {α : Type} : Ev α → Bool
  | .put _ => true
  | _ => false

/-- The orchestrator-side mutable state used by `run_parallel`'s loop:
the remaining task iterator `self.tasks`, the live-worker counter
`self.num_processes`, the accumulated result, and `self.done`. -/
structure LoopSt (α ρ : Type) where
  tasks : List (Option α)
  num_processes : ℕ
  acc : ρ
  done : Bool
deriving DecidableEq

/-- `MapReduce.maybe_put_task`: enqueue `next(self.tasks)` if the iterator
is not exhausted; on `StopIteration` do nothing.  Returns the new state and
the `put` events performed (zero or one). -/
def maybe_put_task {α ρ : Type} (st : LoopSt α ρ) : LoopSt α ρ × List (Ev α) :=
  match st.tasks with
  | [] => (st, [])
  | t :: ts => ({ st with tasks := ts }, [.put t])

/-- Outcome of `run_parallel`'s `while not self.done` loop: left normally
(`finished`, via the done flag or the worker count reaching zero), left by
an exception propagating out of the loop body (`failed`) — either
`r.reraise()` or an exception from `process_result` — or blocked forever in
`out_queue.get()` (`blocked`). -/
inductive LoopOut (ρ ε : Type) where
  | finished (acc : ρ)
  | failed (e : ε)
  | blocked
deriving DecidableEq

/-- The `while not self.done` loop of `MapReduce.run_parallel`, as a function
of the envelope sequence that successive `out_queue.get()` calls return.
Each iteration: get an envelope, `maybe_put_task()`, then dispatch on the
envelope (pill → decrement worker count, break at zero; `ExceptionWrapper`
→ `reraise`; otherwise `process_result` then `progress.update(1)`).
Returns (outcome, final state, unconsumed envelopes, events). -/
def parLoop {α β ρ ε τ : Type} (pr : Option β → ρ → Except ε (ρ × Bool)) :
    List (QVal β ε τ) → LoopSt α ρ →
    LoopOut ρ ε × LoopSt α ρ × List (QVal β ε τ) × List (Ev α)
  | s, st =>
    if st.done then (.finished st.acc, st, s, [])
    else
      match s with
      | [] => (.blocked, st, [], [])
      | r :: rest =>
        let p := maybe_put_task st
        match r with
        | .pill =>
          let st2 : LoopSt α ρ :=
            { p.1 with num_processes := p.1.num_processes - 1 }
          if st2.num_processes = 0 then
            (.finished st2.acc, st2, rest, p.2)
          else
            let q := parLoop pr rest st2
            (q.1, q.2.1, q.2.2.1, p.2 ++ q.2.2.2)
        | .exc w => (.failed w.reraise, p.1, rest, p.2)
        | .val v =>
          match pr (some v) p.1.acc with
          | .error e => (.failed e, p.1, rest, p.2)
          | .ok (acc2, d2) =>
            let st2 : LoopSt α ρ := { p.1 with acc := acc2, done := d2 }
            let q := parLoop pr rest st2
            (q.1, q.2.1, q.2.2.1, p.2 ++ [.update] ++ q.2.2.2)

/-- `MapReduce.finish_parallel`, as its event sequence: put the pill on the
log queue and join the log thread, close the log/task/result queues, close
the progress bar, then terminate every worker process (the `self.processes`
list, whose length is the original process count). -/
def finish_parallel {α : Type} (numProcesses : ℕ) : List (Ev α) :=
  [.logPill, .logJoin, .closeLogQ, .closeInQ, .closeOutQ, .closeProgress] ++
    List.replicate numProcesses .terminate

/-- Result of a whole `run`: the accumulated result, a propagated
exception, or a hang. -/
inductive ROut (ρ ε : Type) where
  | ok (r : ρ)
  | err (e : ε)
  | hung
deriving DecidableEq

/-- `MapReduce.run_parallel` (given the envelope sequence `out_queue.get()`
returns): prime the task queue (`initialize_tasks` puts), run the loop, and
— *only when the loop exits normally* — run `finish_parallel`.  There is no
try/finally in the source: when the loop body raises (`r.reraise()` or
`process_result`), the exception propagates and no teardown happens. -/
def run_parallel {α β ρ ε τ : Type} (pr : Option β → ρ → Except ε (ρ × Bool))
    (emptyResult : ρ) (iterable : List (Option α)) (numProcesses qMax : ℕ)
    (s : List (QVal β ε τ)) : ROut ρ ε × List (Ev α) :=
  let primed := (initTasks qMax iterable numProcesses).1
  let st0 : LoopSt α ρ :=
    ⟨(initTasks qMax iterable numProcesses).2, numProcesses, emptyResult, false⟩
  let q := parLoop pr s st0
  match q.1 with
  | .finished acc =>
    (.ok acc, primed.map .put ++ q.2.2.2 ++ finish_parallel numProcesses)
  | .failed e => (.err e, primed.map .put ++ q.2.2.2)
  | .blocked => (.hung, primed.map .put ++ q.2.2.2)

/-- The `for obj in self.iterable` loop of `MapReduce.run_sequential`:
`compute`, `process_result`, `progress.update(1)`, then break if `self.done`
was set.  An exception from `compute` or `process_result` propagates out of
the loop immediately. -/
def seqLoop {α β ρ ε : Type} (compute : Option α → Except ε (Option β))
    (pr : Option β → ρ → Except ε (ρ × Bool)) :
    List (Option α) → ρ → Except ε ρ × List (Ev α)
  | [], acc => (.ok acc, [])
  | x :: xs, acc =>
    match compute x with
    | .error e => (.error e, [])
    | .ok v =>
      match pr v acc with
      | .error e => (.error e, [])
      | .ok (acc2, d2) =>
        if d2 then (.ok acc2, [.update])
        else
          let q := seqLoop compute pr xs acc2
          (q.1, .update :: q.2)

/-- `MapReduce.run_sequential`: fold the loop over the iterable starting
from `empty_result`, then `progress.close()`.  The `close` is *after* the
loop with no try/finally: if the loop raises, the progress bar is not
closed. -/
def run_sequential {α β ρ ε : Type} (compute : Option α → Except ε (Option β))
    (pr : Option β → ρ → Except ε (ρ × Bool)) (emptyResult : ρ)
    (iterable : List (Option α)) : ROut ρ ε × List (Ev α) :=
  match seqLoop compute pr iterable emptyResult with
  | (.ok r, evs) => (.ok r, evs ++ [.closeProgress])
  | (.error e, evs) => (.err e, evs)

/-- `MapReduce.run(parallel)`: dispatch to the parallel or sequential
implementation. -/
def run {α β ρ ε τ : Type} (compute : Option α → Except ε (Option β))
    (pr : Option β → ρ → Except ε (ρ × Bool)) (emptyResult : ρ)
    (iterable : List (Option α)) (numProcesses qMax : ℕ)
    (s : List (QVal β ε τ)) (parallel : Bool) : ROut ρ ε × List (Ev α) :=
  if parallel then run_parallel pr emptyResult iterable numProcesses qMax s
  else run_sequential compute pr emptyResult iterable

/-!
## Small-step interleaving semantics of a parallel run

A worker's get/compute/put cycle is one atomic step; the orchestrator's
receive/refill/dispatch iteration is one atomic step.  The scheduler (which
enabled step fires) is fully nondeterministic.  `consumed` and `recvd` are
history variables recording, in order, the tasks taken off the task queue
and the envelopes the orchestrator has received.
-/

/-- Status of one worker process: still in its loop, exited normally after
taking the pill, or exited after sending an `ExceptionWrapper`. -/
inductive WStat (ε : Type) where
  | running
  | stoppedPill
  | stoppedExc (e : ε)
deriving DecidableEq

/-- Is this worker stopped after taking the pill? -/
def WStat.isPill {ε : Type} : WStat ε → Bool
  | .stoppedPill => true
  | _ => false

/-- Is this worker stopped after a failure? -/
def WStat.isExcStat {ε : Type} : WStat ε → Bool
  | .stoppedExc _ => true
  | _ => false

/-- The orchestrator's phase: inside the reduction loop (with the current
live-worker count and accumulated result), returned normally from the loop,
or aborted by a propagating exception. -/
inductive OPhase (ρ ε : Type) where
  | looping (num : ℕ) (acc : ρ)
  | finishedPhase (acc : ρ)
  | failedPhase (e : ε)
deriving DecidableEq

/-- The envelope a worker puts on `out_queue` after taking task `t`:
pill for the pill, `compute`'s value (with `None` collapsing to the pill)
on success, a wrapper on failure. -/
def envOf {α β ε τ : Type} (compute : Option α → Except ε (Option β))
    (tbcap : ε → τ) : Option α → QVal β ε τ
  | none => .pill
  | some a =>
    match compute (some a) with
    | .ok v => QVal.ofVal v
    | .error e => .exc ⟨e, tbcap e⟩

/-- The worker's status after handling task `t`: the pill stops it normally,
a failure stops it with the wrapper sent, success keeps it running. -/
def statOf {α β ε : Type} (compute : Option α → Except ε (Option β)) :
    Option α → WStat ε
  | none => .stoppedPill
  | some a =>
    match compute (some a) with
    | .ok _ => .running
    | .error e => .stoppedExc e

/-- One iteration of the reduction loop's dispatch on an envelope, acting on
the orchestrator phase (mirrors the branch structure of `run_parallel`). -/
def loopBranch {β ρ ε τ : Type} (pr : Option β → ρ → Except ε (ρ × Bool))
    (r : QVal β ε τ) (num : ℕ) (acc : ρ) : OPhase ρ ε :=
  match r with
  | .pill => if num - 1 = 0 then .finishedPhase acc else .looping (num - 1) acc
  | .exc w => .failedPhase w.reraise
  | .val v =>
    match pr (some v) acc with
    | .error e => .failedPhase e
    | .ok (acc2, d2) => if d2 then .finishedPhase acc2 else .looping num acc2

/-- Advance the phase by one received envelope; once the loop has been left,
the phase is absorbing. -/
def phaseStep {β ρ ε τ : Type} (pr : Option β → ρ → Except ε (ρ × Bool))
    (ph : OPhase ρ ε) (r : QVal β ε τ) : OPhase ρ ε :=
  match ph with
  | .looping num acc => loopBranch pr r num acc
  | ph => ph

/-- The orchestrator phase determined by a received-envelope history. -/
def replayPhase {β ρ ε τ : Type} (pr : Option β → ρ → Except ε (ρ × Bool))
    (numProcesses : ℕ) (emptyResult : ρ) (l : List (QVal β ε τ)) :
    OPhase ρ ε :=
  l.foldl (phaseStep pr) (.looping numProcesses emptyResult)

/-- Global state of a parallel run. -/
structure MState (α β ρ ε τ : Type) where
  pending : List (Option α)
  inQ : List (Option α)
  outQ : List (QVal β ε τ)
  workers : List (WStat ε)
  phase : OPhase ρ ε
  consumed : List (Option α)
  recvd : List (QVal β ε τ)

/-- `maybe_put_task` at the system level: move the head of the pending
iterator onto the task queue, or do nothing if the iterator is exhausted. -/
def mPut {α β ρ ε τ : Type} (s : MState α β ρ ε τ) : MState α β ρ ε τ :=
  match s.pending with
  | [] => s
  | t :: ts => { s with pending := ts, inQ := s.inQ ++ [t] }

/-- The orchestrator's step on receiving envelope `r`: record it, refill the
task queue (`maybe_put_task` happens before the dispatch on `r`), and
dispatch. -/
def orchRecvState {α β ρ ε τ : Type} (pr : Option β → ρ → Except ε (ρ × Bool))
    (s : MState α β ρ ε τ) (r : QVal β ε τ) (outQ' : List (QVal β ε τ))
    (num : ℕ) (acc : ρ) : MState α β ρ ε τ :=
  mPut { s with
          outQ := outQ',
          recvd := s.recvd ++ [r],
          phase := loopBranch pr r num acc }

/-- One interleaving step: either a running worker atomically takes the head
task off the task queue, handles it, and puts its envelope on the result
queue; or the orchestrator, still in its loop, receives the head envelope
of the result queue. -/
inductive MStep {α β ρ ε τ : Type} (compute : Option α → Except ε (Option β))
    (tbcap : ε → τ) (pr : Option β → ρ → Except ε (ρ × Bool)) :
    MState α β ρ ε τ → MState α β ρ ε τ → Prop where
  | wget (s : MState α β ρ ε τ) (i : ℕ) (t : Option α) (inQ' : List (Option α))
      (hw : s.workers[i]? = some .running) (hq : s.inQ = t :: inQ') :
      MStep compute tbcap pr s
        { s with
            inQ := inQ',
            outQ := s.outQ ++ [envOf compute tbcap t],
            workers := s.workers.set i (statOf compute t),
            consumed := s.consumed ++ [t] }
  | orecv (s : MState α β ρ ε τ) (r : QVal β ε τ) (outQ' : List (QVal β ε τ))
      (num : ℕ) (acc : ρ)
      (hp : s.phase = .looping num acc) (hq : s.outQ = r :: outQ') :
      MStep compute tbcap pr s (orchRecvState pr s r outQ' num acc)

/-- The state right after `start_parallel`: task queue primed by
`initialize_tasks`, all workers running, the orchestrator entering its loop
with `empty_result` and the full worker count. -/
def initMState {α β ρ ε τ : Type} (iterable : List (Option α))
    (numProcesses qMax : ℕ) (emptyResult : ρ) : MState α β ρ ε τ :=
  { pending := (initTasks qMax iterable numProcesses).2,
    inQ := (initTasks qMax iterable numProcesses).1,
    outQ := [],
    workers := List.replicate numProcesses .running,
    phase := .looping numProcesses emptyResult,
    consumed := [],
    recvd := [] }

/-- Reachability from the post-setup state. -/
def Reach {α β ρ ε τ : Type} (compute : Option α → Except ε (Option β))
    (tbcap : ε → τ) (pr : Option β → ρ → Except ε (ρ × Bool))
    (iterable : List (Option α)) (numProcesses qMax : ℕ) (emptyResult : ρ)
    (s : MState α β ρ ε τ) : Prop :=
  Relation.ReflTransGen (MStep compute tbcap pr)
    (initMState iterable numProcesses qMax emptyResult) s

/-- A state with no enabled step (a maximal run ends here). -/
def Stuck {α β ρ ε τ : Type} (compute : Option α → Except ε (Option β))
    (tbcap : ε → τ) (pr : Option β → ρ → Except ε (ρ × Bool))
    (s : MState α β ρ ε τ) : Prop :=
  ∀ s', ¬ MStep compute tbcap pr s s'

/-!
## Helper lemmas
-/

section Helpers

variable {α β ρ ε τ γ : Type}

theorem maybe_put_task_num (st : LoopSt α ρ) :
    (maybe_put_task st).1.num_processes = st.num_processes := by
  cases h : st.tasks <;> simp [maybe_put_task, h]

theorem maybe_put_task_acc (st : LoopSt α ρ) :
    (maybe_put_task st).1.acc = st.acc := by
  cases h : st.tasks <;> simp [maybe_put_task, h]

theorem maybe_put_task_done (st : LoopSt α ρ) :
    (maybe_put_task st).1.done = st.done := by
  cases h : st.tasks <;> simp [maybe_put_task, h]

theorem maybe_put_task_events (st : LoopSt α ρ) :
    (maybe_put_task st).2 = [] ∨ ∃ t, (maybe_put_task st).2 = [.put t] := by
  cases h : st.tasks <;> simp [maybe_put_task, h]

/-- `countP` after overwriting position `i` (which held `a`) with `b`. -/
theorem countP_set_of_getElem (p : γ → Bool) (l : List γ) (i : ℕ) (a b : γ)
    (h : l[i]? = some a) :
    (l.set i b).countP p + (if p a then 1 else 0) =
      l.countP p + (if p b then 1 else 0) := by
  induction l generalizing i with
  | nil => simp at h
  | cons x xs ih =>
    cases i with
    | zero =>
      simp only [List.getElem?_cons_zero, Option.some.injEq] at h
      subst h
      simp [List.countP_cons]
      omega
    | succ j =>
      simp only [List.getElem?_cons_succ] at h
      have := ih j h
      simp [List.countP_cons]
      omega

theorem statOf_isPill (compute : Option α → Except ε (Option β))
    (t : Option α) : (statOf compute t).isPill = t.isNone := by
  match t with
  | none => rfl
  | some a =>
    simp only [statOf]
    cases h : compute (some a) <;> simp [WStat.isPill]

theorem statOf_isExcStat (compute : Option α → Except ε (Option β))
    (tbcap : ε → τ) (t : Option α) :
    (statOf compute t).isExcStat = (envOf compute tbcap t).isExc := by
  match t with
  | none => rfl
  | some a =>
    simp only [statOf, envOf]
    cases h : compute (some a) with
    | error e => rfl
    | ok v => cases v <;> simp [WStat.isExcStat, QVal.ofVal, QVal.isExc]

/-- Every step strictly decreases this measure, so runs are finite. -/
def mMeasure (s : MState α β ρ ε τ) : ℕ :=
  2 * s.pending.length + 2 * s.inQ.length + s.outQ.length

theorem mMeasure_lt_of_step {compute : Option α → Except ε (Option β)}
    {tbcap : ε → τ} {pr : Option β → ρ → Except ε (ρ × Bool)}
    {s s' : MState α β ρ ε τ} (h : MStep compute tbcap pr s s') :
    mMeasure s' < mMeasure s := by
  cases h with
  | wget i t inQ' hw hq =>
    simp [mMeasure, hq]
    omega
  | orecv r outQ' num acc hp hq =>
    cases hpend : s.pending with
    | nil =>
      simp [mMeasure, orchRecvState, mPut, hpend, hq]
    | cons t ts =>
      simp [mMeasure, orchRecvState, mPut, hpend, hq]
      omega

theorem no_infinite_descent (f : ℕ → ℕ) (h : ∀ n, f (n + 1) < f n) : False := by
  have key : ∀ n, f n + n ≤ f 0 := by
    intro n
    induction n with
    | zero => omega
    | succ k ih => have := h k; omega
  have := key (f 0 + 1)
  omega

/-- No infinite run of the machine exists: the interleaving semantics always
terminates (every schedule reaches a stuck state). -/
theorem no_infinite_run {compute : Option α → Except ε (Option β)}
    {tbcap : ε → τ} {pr : Option β → ρ → Except ε (ρ × Bool)}
    (f : ℕ → MState α β ρ ε τ)
    (hs : ∀ n, MStep compute tbcap pr (f n) (f (n + 1))) : False :=
  no_infinite_descent (fun n => mMeasure (f n))
    (fun n => mMeasure_lt_of_step (hs n))

end Helpers

/-!
## The global invariant of a parallel run
-/

section Invariant

variable {α β ρ ε τ : Type}
variable (compute : Option α → Except ε (Option β)) (tbcap : ε → τ)
variable (pr : Option β → ρ → Except ε (ρ × Bool))
variable (iterable : List (Option α)) (numProcesses qMax : ℕ) (emptyResult : ρ)

/-- Invariant of all reachable states of a parallel run:
* `split_eq`: the consumed tasks, the task-queue contents and the pending
  iterator partition the task stream, in order;
* `sent_eq`: the received envelopes followed by the result-queue contents
  are exactly the envelopes of the consumed tasks, in order (each consumed
  task produced exactly one envelope);
* `phase_eq`: the orchestrator phase is determined by replaying the loop
  body over the received envelopes;
* `pill_workers` / `exc_workers`: worker statuses match the consumed tasks;
* `pending_full`: while the pending iterator is nonempty, every consumed
  slot has been refilled, so queue occupancy stays at the priming level;
* `len_le`: the task queue (plus in-flight envelopes) never exceeds the
  capacity ceiling. -/
structure MInv (s : MState α β ρ ε τ) : Prop where
  split_eq : s.consumed ++ s.inQ ++ s.pending = taskStream iterable numProcesses
  sent_eq : s.recvd ++ s.outQ = s.consumed.map (envOf compute tbcap)
  workers_len : s.workers.length = numProcesses
  phase_eq : s.phase = replayPhase pr numProcesses emptyResult s.recvd
  pill_workers : s.workers.countP WStat.isPill = s.consumed.countP Option.isNone
  exc_workers : s.workers.countP WStat.isExcStat =
    s.consumed.countP (fun t => (envOf compute tbcap t).isExc)
  pending_full : s.pending ≠ [] →
    s.inQ.length + s.outQ.length = min qMax (taskStream iterable numProcesses).length
  len_le : s.inQ.length + s.outQ.length ≤ qMax

theorem inv_init :
    MInv compute tbcap pr iterable numProcesses qMax emptyResult
      (initMState iterable numProcesses qMax emptyResult) := by
  constructor
  case split_eq => simp [initMState, initTasks]
  case sent_eq => simp [initMState]
  case workers_len => simp [initMState]
  case phase_eq => rfl
  case pill_workers =>
    simp [initMState, WStat.isPill]
  case exc_workers =>
    simp [initMState, WStat.isExcStat]
  case pending_full =>
    intro hp
    simp only [initMState, initTasks] at hp ⊢
    simp [List.length_take]
  case len_le =>
    simp [initMState, initTasks, List.length_take]

/-- `countP` after overwriting a position holding `.running`, for a
predicate that rejects `.running`. -/
theorem countP_set_running (p : WStat ε → Bool) (hrun : p .running = false)
    (l : List (WStat ε)) (i : ℕ) (b : WStat ε) (h : l[i]? = some .running) :
    (l.set i b).countP p = l.countP p + (if p b then 1 else 0) := by
  have hc := countP_set_of_getElem p l i .running b h
  rw [hrun] at hc
  simpa using hc

theorem inv_step {s s' : MState α β ρ ε τ}
    (hinv : MInv compute tbcap pr iterable numProcesses qMax emptyResult s)
    (hstep : MStep compute tbcap pr s s') :
    MInv compute tbcap pr iterable numProcesses qMax emptyResult s' := by
  obtain ⟨hsplit, hsent, hwlen, hphase, hpill, hexc, hfull, hle⟩ := hinv
  cases hstep with
  | wget i t inQ' hw hq =>
    have hlen : s.inQ.length = inQ'.length + 1 := by rw [hq]; simp
    constructor
    case split_eq =>
      rw [hq] at hsplit
      simpa [List.append_assoc] using hsplit
    case sent_eq =>
      simp only [List.map_append, List.map_cons, List.map_nil]
      rw [← List.append_assoc, hsent]
    case workers_len =>
      simp [List.length_set, hwlen]
    case phase_eq => exact hphase
    case pill_workers =>
      rw [countP_set_running WStat.isPill rfl s.workers i _ hw, statOf_isPill,
        List.countP_append, List.countP_cons, List.countP_nil, hpill]
      simp
    case exc_workers =>
      rw [countP_set_running WStat.isExcStat rfl s.workers i _ hw,
        statOf_isExcStat compute tbcap,
        List.countP_append, List.countP_cons, List.countP_nil, hexc]
      simp
    case pending_full =>
      intro hp
      have := hfull hp
      simp only [List.length_append, List.length_cons, List.length_nil]
      omega
    case len_le =>
      simp only [List.length_append, List.length_cons, List.length_nil]
      omega
  | orecv r outQ' num acc hp hq =>
    have hout : s.outQ.length = outQ'.length + 1 := by rw [hq]; simp
    have hphase' : loopBranch pr r num acc =
        replayPhase pr numProcesses emptyResult (s.recvd ++ [r]) := by
      rw [replayPhase, List.foldl_append]
      rw [replayPhase] at hphase
      rw [← hphase, hp]
      rfl
    have hsent' : (s.recvd ++ [r]) ++ outQ' = s.consumed.map (envOf compute tbcap) := by
      rw [hq] at hsent
      simpa [List.append_assoc] using hsent
    cases hpend : s.pending with
    | nil =>
      constructor
      case split_eq => simpa [orchRecvState, mPut, hpend] using hsplit
      case sent_eq => simpa [orchRecvState, mPut, hpend] using hsent'
      case workers_len => simpa [orchRecvState, mPut, hpend] using hwlen
      case phase_eq => simpa [orchRecvState, mPut, hpend] using hphase'
      case pill_workers => simpa [orchRecvState, mPut, hpend] using hpill
      case exc_workers => simpa [orchRecvState, mPut, hpend] using hexc
      case pending_full => simp [orchRecvState, mPut, hpend]
      case len_le =>
        simp only [orchRecvState, mPut, hpend]
        omega
    | cons t ts =>
      have hfull' := hfull (by rw [hpend]; simp)
      constructor
      case split_eq =>
        rw [hpend] at hsplit
        simp only [orchRecvState, mPut, hpend]
        simpa [List.append_assoc] using hsplit
      case sent_eq => simpa [orchRecvState, mPut, hpend] using hsent'
      case workers_len => simpa [orchRecvState, mPut, hpend] using hwlen
      case phase_eq => simpa [orchRecvState, mPut, hpend] using hphase'
      case pill_workers => simpa [orchRecvState, mPut, hpend] using hpill
      case exc_workers => simpa [orchRecvState, mPut, hpend] using hexc
      case pending_full =>
        intro hne
        simp only [orchRecvState, mPut, hpend, List.length_append,
          List.length_cons, List.length_nil] at hne ⊢
        omega
      case len_le =>
        simp only [orchRecvState, mPut, hpend, List.length_append,
          List.length_cons, List.length_nil]
        omega

theorem inv_reach {s : MState α β ρ ε τ}
    (h : Reach compute tbcap pr iterable numProcesses qMax emptyResult s) :
    MInv compute tbcap pr iterable numProcesses qMax emptyResult s := by
  induction h with
  | refl => exact inv_init compute tbcap pr iterable numProcesses qMax emptyResult
  | tail _ hstep ih =>
    exact inv_step compute tbcap pr iterable numProcesses qMax emptyResult ih hstep

end Invariant

/-!
## Replaying the reduction loop over a received-envelope history
-/

section Replay

variable {α β ρ ε τ : Type}
variable (pr : Option β → ρ → Except ε (ρ × Bool))

theorem foldl_phaseStep_failed (e : ε) (l : List (QVal β ε τ)) :
    l.foldl (phaseStep pr) (.failedPhase e) = .failedPhase e := by
  induction l with
  | nil => rfl
  | cons r rest ih => simpa [phaseStep] using ih

theorem foldl_phaseStep_finished (acc : ρ) (l : List (QVal β ε τ)) :
    l.foldl (phaseStep pr) (.finishedPhase acc) = .finishedPhase acc := by
  induction l with
  | nil => rfl
  | cons r rest ih => simpa [phaseStep] using ih

/-- A reducer that never raises and never sets the done flag keeps the loop
in its `looping` phase (with the worker count unchanged) over any sequence
of ordinary-value envelopes. -/
theorem foldl_phaseStep_vals
    (Hpr : ∀ v r, ∃ r', pr v r = .ok (r', false)) :
    ∀ (l : List (QVal β ε τ)) (num : ℕ) (acc : ρ),
      (∀ x ∈ l, ∃ b, x = QVal.val b) →
      ∃ acc', l.foldl (phaseStep pr) (.looping num acc) = .looping num acc' := by
  intro l
  induction l with
  | nil => exact fun num acc _ => ⟨acc, rfl⟩
  | cons x rest ih =>
    intro num acc hv
    obtain ⟨b, rfl⟩ := hv x (by simp)
    obtain ⟨r', hr'⟩ := Hpr (some b) acc
    have hstep : phaseStep pr (OPhase.looping num acc) (QVal.val b : QVal β ε τ) =
        .looping num r' := by
      simp [phaseStep, loopBranch, hr']
    rw [List.foldl_cons, hstep]
    exact ih num r' (fun y hy => hv y (by simp [hy]))

/-- The first `ExceptionWrapper` envelope after a run of ordinary values
aborts the loop with the wrapped (original) exception. -/
theorem foldl_phaseStep_exc
    (Hpr : ∀ v r, ∃ r', pr v r = .ok (r', false))
    (l₁ : List (QVal β ε τ)) (w : ExceptionWrapper ε τ) (l₂ : List (QVal β ε τ))
    (num : ℕ) (acc : ρ) (hvals : ∀ x ∈ l₁, ∃ b, x = QVal.val b) :
    (l₁ ++ .exc w :: l₂).foldl (phaseStep pr) (.looping num acc) =
      .failedPhase w.reraise := by
  obtain ⟨acc', hacc⟩ := foldl_phaseStep_vals pr Hpr l₁ num acc hvals
  rw [List.foldl_append, hacc, List.foldl_cons]
  have hstep : phaseStep pr (OPhase.looping num acc') (QVal.exc w) =
      .failedPhase w.reraise := rfl
  rw [hstep, foldl_phaseStep_failed]

end Replay

/-!
## One-step unfolding equations for the reduction loop

These equations restate, one envelope kind at a time, the body of
`run_parallel`'s loop: `r = out_queue.get()`, then `maybe_put_task()`
unconditionally (before `r` is examined, whatever kind of envelope it is),
then the dispatch on `r`.
-/

section LoopStep

variable {α β ρ ε τ : Type}
variable (pr : Option β → ρ → Except ε (ρ × Bool))

theorem parLoop_done (s : List (QVal β ε τ)) (st : LoopSt α ρ)
    (h : st.done = true) : parLoop pr s st = (.finished st.acc, st, s, []) := by
  cases s <;> simp [parLoop, h]

theorem parLoop_nil (st : LoopSt α ρ) (h : st.done = false) :
    parLoop pr ([] : List (QVal β ε τ)) st = (.blocked, st, [], []) := by
  simp [parLoop, h]

theorem parLoop_exc (w : ExceptionWrapper ε τ) (rest : List (QVal β ε τ))
    (st : LoopSt α ρ) (h : st.done = false) :
    parLoop pr (.exc w :: rest) st =
      (.failed w.reraise, (maybe_put_task st).1, rest, (maybe_put_task st).2) := by
  simp [parLoop, h]

theorem parLoop_pill_exit (rest : List (QVal β ε τ)) (st : LoopSt α ρ)
    (h : st.done = false) (hz : st.num_processes - 1 = 0) :
    parLoop pr (.pill :: rest) st =
      (.finished st.acc,
       { (maybe_put_task st).1 with num_processes := 0 },
       rest, (maybe_put_task st).2) := by
  simp [parLoop, h, maybe_put_task_num, maybe_put_task_acc, hz]

theorem parLoop_pill_go (rest : List (QVal β ε τ)) (st : LoopSt α ρ)
    (h : st.done = false) (hz : st.num_processes - 1 ≠ 0) :
    parLoop pr (.pill :: rest) st =
      (let st2 : LoopSt α ρ :=
        { (maybe_put_task st).1 with num_processes := st.num_processes - 1 }
       let q := parLoop pr rest st2
       (q.1, q.2.1, q.2.2.1, (maybe_put_task st).2 ++ q.2.2.2)) := by
  simp [parLoop, h, maybe_put_task_num, hz]

theorem parLoop_val_err (v : β) (e : ε) (rest : List (QVal β ε τ))
    (st : LoopSt α ρ) (h : st.done = false)
    (hpr : pr (some v) st.acc = .error e) :
    parLoop pr (.val v :: rest) st =
      (.failed e, (maybe_put_task st).1, rest, (maybe_put_task st).2) := by
  simp [parLoop, h, maybe_put_task_acc, hpr]

theorem parLoop_val_ok (v : β) (acc2 : ρ) (d2 : Bool)
    (rest : List (QVal β ε τ)) (st : LoopSt α ρ) (h : st.done = false)
    (hpr : pr (some v) st.acc = .ok (acc2, d2)) :
    parLoop pr (.val v :: rest) st =
      (let st2 : LoopSt α ρ :=
        { (maybe_put_task st).1 with acc := acc2, done := d2 }
       let q := parLoop pr rest st2
       (q.1, q.2.1, q.2.2.1, (maybe_put_task st).2 ++ [.update] ++ q.2.2.2)) := by
  simp [parLoop, h, maybe_put_task_acc, hpr]

/-- Every event the reduction loop itself emits is a progress update or a
task-queue put: teardown events come only from `finish_parallel`. -/
theorem parLoop_events_shape :
    ∀ (s : List (QVal β ε τ)) (st : LoopSt α ρ) (x : Ev α),
      x ∈ (parLoop pr s st).2.2.2 → x = .update ∨ ∃ t, x = .put t := by
  intro s
  induction s with
  | nil =>
    intro st x hx
    by_cases hd : st.done
    · rw [parLoop_done pr _ _ hd] at hx
      simp at hx
    · rw [parLoop_nil pr _ (by simpa using hd)] at hx
      simp at hx
  | cons r rest ih =>
    intro st x hx
    by_cases hd : st.done
    · rw [parLoop_done pr _ _ hd] at hx
      simp at hx
    have hd' : st.done = false := by simpa using hd
    have hput : ∀ y, y ∈ (maybe_put_task st).2 → ∃ t, y = Ev.put t := by
      intro y hy
      rcases maybe_put_task_events st with hmp | ⟨t, hmp⟩ <;> rw [hmp] at hy
      · simp at hy
      · simp at hy
        exact ⟨t, hy⟩
    cases r with
    | pill =>
      by_cases hz : st.num_processes - 1 = 0
      · rw [parLoop_pill_exit pr _ _ hd' hz] at hx
        exact .inr (hput x hx)
      · rw [parLoop_pill_go pr _ _ hd' hz] at hx
        simp only [List.mem_append] at hx
        rcases hx with hx | hx
        · exact .inr (hput x hx)
        · exact ih _ x hx
    | exc w =>
      rw [parLoop_exc pr _ _ _ hd'] at hx
      exact .inr (hput x hx)
    | val v =>
      cases hpr : pr (some v) st.acc with
      | error e =>
        rw [parLoop_val_err pr _ _ _ _ hd' hpr] at hx
        exact .inr (hput x hx)
      | ok p =>
        rw [parLoop_val_ok pr _ p.1 p.2 _ _ hd' (by rw [hpr])] at hx
        simp only [List.mem_append] at hx
        rcases hx with (hx | hx) | hx
        · exact .inr (hput x hx)
        · simp at hx
          exact .inl hx
        · exact ih _ x hx

/-- If replaying the received envelopes aborts the loop with exception `e`,
then `run_parallel`'s loop, fed the same envelopes, exits with `.failed e`
(whatever the remaining task iterator holds). -/
theorem parLoop_of_replay_failed (e : ε) :
    ∀ (l : List (QVal β ε τ)) (st : LoopSt α ρ), st.done = false →
      l.foldl (phaseStep pr) (.looping st.num_processes st.acc) = .failedPhase e →
      (parLoop pr l st).1 = .failed e := by
  intro l
  induction l with
  | nil =>
    intro st hd hf
    simp [List.foldl_nil] at hf
  | cons r rest ih =>
    intro st hd hf
    rw [List.foldl_cons] at hf
    cases r with
    | pill =>
      simp only [phaseStep, loopBranch] at hf
      by_cases hz : st.num_processes - 1 = 0
      · rw [if_pos hz, foldl_phaseStep_finished] at hf
        exact absurd hf (by simp)
      · rw [if_neg hz] at hf
        rw [parLoop_pill_go pr _ _ hd hz]
        simp only
        apply ih
        · simp [maybe_put_task_done, hd]
        · simpa [maybe_put_task_acc] using hf
    | exc w =>
      simp only [phaseStep, loopBranch, foldl_phaseStep_failed] at hf
      rw [parLoop_exc pr _ _ _ hd]
      simp only [OPhase.failedPhase.injEq] at hf
      simp [hf]
    | val v =>
      simp only [phaseStep, loopBranch] at hf
      cases hpr : pr (some v) st.acc with
      | error e' =>
        rw [hpr, foldl_phaseStep_failed] at hf
        simp only [OPhase.failedPhase.injEq] at hf
        rw [parLoop_val_err pr _ _ _ _ hd hpr]
        simp [hf]
      | ok p =>
        obtain ⟨acc2, d2⟩ := p
        rw [hpr] at hf
        by_cases hdn : d2
        · rw [hdn] at hf
          simp only [if_true, foldl_phaseStep_finished] at hf
          exact absurd hf (by simp)
        · simp only [Bool.not_eq_true] at hdn
          rw [hdn] at hf
          simp only [Bool.false_eq_true, if_false] at hf
          rw [parLoop_val_ok pr _ acc2 d2 _ _ hd (by rw [hpr, hdn])]
          simp only
          apply ih
          · simp [maybe_put_task_done, hdn]
          · simpa [maybe_put_task_num] using hf

/-- `run_parallel` raises (returns `.err`) exactly the exception with which
replaying its envelope stream aborts the loop. -/
theorem run_parallel_err_of_replay (e : ε) (emptyResult : ρ)
    (iterable : List (Option α)) (numProcesses qMax : ℕ)
    (l : List (QVal β ε τ))
    (hreplay : l.foldl (phaseStep pr) (.looping numProcesses emptyResult) =
      .failedPhase e) :
    (run_parallel pr emptyResult iterable numProcesses qMax l).1 = .err e := by
  have hloop := parLoop_of_replay_failed pr e l
    ⟨(initTasks qMax iterable numProcesses).2, numProcesses, emptyResult, false⟩
    rfl hreplay
  simp [run_parallel, hloop]

/-- Every event the sequential loop emits is a progress update. -/
theorem seqLoop_events (compute : Option α → Except ε (Option β)) :
    ∀ (items : List (Option α)) (acc : ρ) (x : Ev α),
      x ∈ (seqLoop compute pr items acc).2 → x = .update := by
  intro items
  induction items with
  | nil =>
    intro acc x hx
    simp [seqLoop] at hx
  | cons y ys ih =>
    intro acc x hx
    cases hc : compute y with
    | error e => simp [seqLoop, hc] at hx
    | ok v =>
      cases hp : pr v acc with
      | error e => simp [seqLoop, hc, hp] at hx
      | ok p =>
        obtain ⟨acc2, d2⟩ := p
        by_cases hd : d2
        · simp [seqLoop, hc, hp, hd] at hx
          simp [hx]
        · simp only [Bool.not_eq_true] at hd
          simp [seqLoop, hc, hp, hd] at hx
          rcases hx with hx | hx
          · simp [hx]
          · exact ih acc2 x hx

end LoopStep

/-!
## The one-failing-item scenario

`compute` raises exception `e` on exactly one item `a0` of the input
sequence `pre ++ a0 :: post` (and never returns `None`); the reducer never
raises and never short-circuits.  Sequentially the run raises `e`; in
parallel, every maximal schedule ends with the orchestrator aborted by the
same `e`.
-/

section Scenario

variable {α β ρ ε τ : Type}
variable (compute : Option α → Except ε (Option β)) (tbcap : ε → τ)
variable (pr : Option β → ρ → Except ε (ρ × Bool))
variable (post : List α) (a0 : α) (e : ε)

theorem seqLoop_one_failure (Hfail : compute (some a0) = .error e)
    (Hpr : ∀ v r, ∃ r', pr v r = .ok (r', false)) :
    ∀ (pre : List α) (init : ρ),
      (∀ a ∈ pre, ∃ b : β, compute (some a) = .ok (some b)) →
      seqLoop compute pr ((pre ++ a0 :: post).map some) init =
        (.error e, List.replicate pre.length .update) := by
  intro pre
  induction pre with
  | nil =>
    intro init _
    simp [seqLoop, Hfail]
  | cons a pre' ih =>
    intro init hok
    obtain ⟨b, hb⟩ := hok a (by simp)
    obtain ⟨r', hr'⟩ := Hpr (some b) init
    have hrest := ih r' (fun x hx => hok x (by simp [hx]))
    simp only [List.map_append, List.map_cons] at hrest
    simp only [List.map_cons, List.cons_append, seqLoop, hb, hr']
    simp [hrest, List.replicate_succ]

/-- The shape of the task stream in this scenario. -/
theorem taskStream_one_failure (pre : List α) (numProcesses : ℕ) :
    taskStream ((pre ++ a0 :: post).map some) numProcesses =
      pre.map some ++ some a0 ::
        (post.map some ++ List.replicate numProcesses (none : Option α)) := by
  simp [taskStream, POISON_PILL]

/-- The envelopes of the full task stream: the `pre` values, then the
wrapper for `e`, then the rest. -/
theorem map_envOf_one_failure (pre : List α) (numProcesses : ℕ)
    (Hfail : compute (some a0) = .error e) :
    (taskStream ((pre ++ a0 :: post).map some) numProcesses).map
        (envOf compute tbcap) =
      (pre.map fun a => envOf compute tbcap (some a)) ++
        QVal.exc ⟨e, tbcap e⟩ ::
          ((post.map some ++ List.replicate numProcesses (none : Option α)).map
            (envOf compute tbcap)) := by
  rw [taskStream_one_failure]
  simp only [List.map_append, List.map_cons, List.map_map]
  have henv : envOf compute tbcap (some a0) = QVal.exc ⟨e, tbcap e⟩ := by
    simp [envOf, Hfail]
  rw [henv]
  rfl

theorem vals_of_pre (pre : List α)
    (Hok : ∀ a ∈ pre, ∃ b : β, compute (some a) = .ok (some b)) :
    ∀ x ∈ pre.map fun a => envOf compute tbcap (some a), ∃ b, x = QVal.val b := by
  intro x hx
  rw [List.mem_map] at hx
  obtain ⟨a, ha, rfl⟩ := hx
  obtain ⟨b, hb⟩ := Hok a ha
  exact ⟨b, by simp [envOf, hb, QVal.ofVal]⟩

/-- A prefix (`take`) of the full envelope stream is either made of
ordinary values only, or extends past the failing item's wrapper. -/
theorem take_envelopes_dichotomy (A B : List (QVal β ε τ))
    (w : ExceptionWrapper ε τ) (m : ℕ)
    (hA : ∀ x ∈ A, ∃ b, x = QVal.val b) :
    (∀ x ∈ (A ++ .exc w :: B).take m, ∃ b, x = QVal.val b) ∨
      ∃ C, (A ++ .exc w :: B).take m = A ++ .exc w :: C := by
  by_cases hm : m ≤ A.length
  · left
    intro x hx
    rw [List.take_append_eq_append_take] at hx
    have hz : m - A.length = 0 := by omega
    rw [hz] at hx
    simp only [List.take_zero, List.append_nil] at hx
    exact hA x (List.take_subset m A hx)
  · right
    rw [List.take_append_eq_append_take]
    have hm' : A.length ≤ m := by omega
    rw [List.take_of_length_le hm']
    obtain ⟨j, hj⟩ : ∃ j, m - A.length = j + 1 := ⟨m - A.length - 1, by omega⟩
    rw [hj]
    exact ⟨B.take j, by simp⟩

/-- Every reachable state of the scenario has its orchestrator either
already aborted with `e`, or still looping having received only
ordinary-value envelopes. -/
theorem phase_dichotomy (pre : List α) (numProcesses qMax : ℕ)
    (emptyResult : ρ) (s : MState α β ρ ε τ)
    (Hfail : compute (some a0) = .error e)
    (Hok : ∀ a ∈ pre, ∃ b : β, compute (some a) = .ok (some b))
    (Hpr : ∀ v r, ∃ r', pr v r = .ok (r', false))
    (hinv : MInv compute tbcap pr ((pre ++ a0 :: post).map some)
      numProcesses qMax emptyResult s) :
    s.phase = .failedPhase e ∨
      ((∃ acc, s.phase = .looping numProcesses acc) ∧
        ∀ x ∈ s.recvd, ∃ b, x = QVal.val b) := by
  -- the received envelopes are a `take` of the full envelope stream
  have hcons : s.consumed =
      (taskStream ((pre ++ a0 :: post).map some) numProcesses).take
        s.consumed.length := by
    have h := hinv.split_eq
    rw [← h, List.append_assoc]
    exact (List.take_left _ _).symm
  have hrecvd0 : s.recvd =
      (s.consumed.map (envOf compute tbcap)).take s.recvd.length := by
    have h := hinv.sent_eq
    rw [← h]
    exact (List.take_left _ _).symm
  obtain ⟨m, hrecvd⟩ : ∃ m, s.recvd =
      ((taskStream ((pre ++ a0 :: post).map some) numProcesses).map
        (envOf compute tbcap)).take m := by
    refine ⟨min s.recvd.length s.consumed.length, ?_⟩
    rw [← List.take_take, ← List.map_take, ← hcons, ← hrecvd0]
  rw [map_envOf_one_failure compute tbcap post a0 e pre numProcesses Hfail]
    at hrecvd
  rcases take_envelopes_dichotomy
      (pre.map fun a => envOf compute tbcap (some a)) _ _ _
      (vals_of_pre compute tbcap pre Hok) with hvals | ⟨C, hC⟩
  · right
    refine ⟨?_, fun x hx => hvals x (by rw [← hrecvd]; exact hx)⟩
    have hreplay := hinv.phase_eq
    obtain ⟨acc', hacc'⟩ := foldl_phaseStep_vals pr Hpr s.recvd numProcesses
      emptyResult (fun x hx => hvals x (by rw [← hrecvd]; exact hx))
    rw [replayPhase] at hreplay
    exact ⟨acc', by rw [hreplay, hacc']⟩
  · left
    have hreplay := hinv.phase_eq
    rw [replayPhase] at hreplay
    rw [hrecvd, hC] at hreplay
    rw [foldl_phaseStep_exc pr Hpr _ _ _ _ _
      (vals_of_pre compute tbcap pre Hok)] at hreplay
    simpa [ExceptionWrapper.reraise] using hreplay

/-- Deadlock-freedom and failure propagation: in the one-failing-item
scenario, every reachable state of the machine from which no step is
enabled has the orchestrator aborted with the original exception `e`. -/
theorem stuck_phase_failed (pre : List α) (numProcesses qMax : ℕ)
    (emptyResult : ρ) (s : MState α β ρ ε τ)
    (HN : 1 ≤ numProcesses) (Hq : 1 ≤ qMax)
    (Hfail : compute (some a0) = .error e)
    (Hok : ∀ a ∈ pre, ∃ b : β, compute (some a) = .ok (some b))
    (Hpr : ∀ v r, ∃ r', pr v r = .ok (r', false))
    (hreach : Reach compute tbcap pr ((pre ++ a0 :: post).map some)
      numProcesses qMax emptyResult s)
    (hstuck : Stuck compute tbcap pr s) :
    s.phase = .failedPhase e := by
  have hinv := inv_reach compute tbcap pr ((pre ++ a0 :: post).map some)
    numProcesses qMax emptyResult hreach
  rcases phase_dichotomy compute tbcap pr post a0 e pre numProcesses qMax
      emptyResult s Hfail Hok Hpr hinv with hfail | ⟨⟨acc, hph⟩, hvals⟩
  · exact hfail
  exfalso
  -- the orchestrator is receivable, so stuckness forces an empty result queue
  have houtQ : s.outQ = [] := by
    cases ho : s.outQ with
    | nil => rfl
    | cons r rest =>
      exact absurd (MStep.orecv s r rest numProcesses acc hph ho) (hstuck _)
  -- hence the consumed tasks produced only ordinary-value envelopes
  have hrecvd : s.recvd = s.consumed.map (envOf compute tbcap) := by
    have h := hinv.sent_eq
    rw [houtQ] at h
    simpa using h
  have hcons_val : ∀ t ∈ s.consumed,
      ∃ b, envOf compute tbcap t = QVal.val b := by
    intro t ht
    exact hvals _ (by rw [hrecvd]; exact List.mem_map_of_mem _ ht)
  have hcons_none : s.consumed.countP Option.isNone = 0 := by
    rw [List.countP_eq_zero]
    intro t ht
    obtain ⟨b, hb⟩ := hcons_val t ht
    cases t with
    | none => simp [envOf] at hb
    | some a => simp
  have hcons_exc :
      s.consumed.countP (fun t => (envOf compute tbcap t).isExc) = 0 := by
    rw [List.countP_eq_zero]
    intro t ht
    obtain ⟨b, hb⟩ := hcons_val t ht
    simp [hb, QVal.isExc]
  -- so no worker has stopped: all are running
  have hworkrun : ∀ w ∈ s.workers, w = WStat.running := by
    have h1 := hinv.pill_workers
    have h2 := hinv.exc_workers
    rw [hcons_none, List.countP_eq_zero] at h1
    rw [hcons_exc, List.countP_eq_zero] at h2
    intro w hw
    cases w with
    | running => rfl
    | stoppedPill =>
      exact absurd (show WStat.isPill .stoppedPill = true from rfl) (h1 _ hw)
    | stoppedExc e' =>
      exact absurd (show WStat.isExcStat (.stoppedExc e') = true from rfl) (h2 _ hw)
  have hw0 : s.workers[0]? = some WStat.running := by
    cases hww : s.workers with
    | nil =>
      have h := hinv.workers_len
      rw [hww] at h
      simp at h
      omega
    | cons w ws =>
      have hwr : w = WStat.running := hworkrun w (by rw [hww]; simp)
      simp [hwr]
  -- a running worker is receivable, so the task queue must be empty
  have hinQ : s.inQ = [] := by
    cases hi : s.inQ with
    | nil => rfl
    | cons t ts => exact absurd (MStep.wget s 0 t ts hw0 hi) (hstuck _)
  -- occupancy: a nonempty pending iterator keeps the queues at priming level
  have hpend : s.pending = [] := by
    cases hpd : s.pending with
    | nil => rfl
    | cons t ts =>
      have h := hinv.pending_full (by rw [hpd]; simp)
      rw [hinQ, houtQ] at h
      simp only [List.length_nil] at h
      have hL : 1 ≤ (taskStream ((pre ++ a0 :: post).map some) numProcesses).length := by
        simp [taskStream]
        omega
      omega
  -- then the whole stream was consumed, including the failing item
  have hconsumed : s.consumed =
      taskStream ((pre ++ a0 :: post).map some) numProcesses := by
    have h := hinv.split_eq
    rw [hinQ, hpend] at h
    simpa using h
  have hmem : (some a0) ∈ s.consumed := by
    rw [hconsumed, taskStream_one_failure]
    simp
  obtain ⟨b, hb⟩ := hcons_val _ hmem
  simp [envOf, Hfail] at hb

end Scenario

/-!
## Remaining small helpers for the claims
-/

section MoreHelpers

variable {α β ρ ε τ : Type}
variable (compute : Option α → Except ε (Option β)) (tbcap : ε → τ)
variable (pr : Option β → ρ → Except ε (ρ × Bool))

/-- A worker whose computes succeed until a failing item emits the
envelopes of the successes followed by exactly the wrapper. -/
theorem worker_one_failure (a : α) (e : ε) (rest : List (Option α))
    (Hfail : compute (some a) = .error e) :
    ∀ (items : List α),
      (∀ x ∈ items, ∃ b : β, compute (some x) = .ok (some b)) →
      worker compute tbcap (items.map some ++ some a :: rest) =
        (items.map fun x => envOf compute tbcap (some x)) ++
          [.exc ⟨e, tbcap e⟩] := by
  intro items
  induction items with
  | nil =>
    intro _
    simp [worker, Hfail]
  | cons x xs ih =>
    intro hok
    obtain ⟨b, hb⟩ := hok x (by simp)
    simp only [List.map_cons, List.cons_append, worker, hb, List.append_eq]
    rw [ih (fun y hy => hok y (by simp [hy]))]
    simp [envOf, hb]

/-- A worker stops pulling at the first `None` on the task queue: nothing
after it is ever read. -/
theorem worker_stops_at_none :
    ∀ (l₁ l₂ : List (Option α)),
      worker compute tbcap (l₁ ++ none :: l₂) =
        worker compute tbcap (l₁ ++ [none]) := by
  intro l₁
  induction l₁ with
  | nil => intro l₂; rfl
  | cons t l₁' ih =>
    intro l₂
    cases t with
    | none => rfl
    | some a =>
      cases hc : compute (some a) with
      | error e => simp [worker, hc]
      | ok v => simp [worker, hc, ih]

/-- The sequential loop with a never-raising compute and a never-raising,
never-short-circuiting reducer is a left fold emitting one update per
item. -/
theorem seqLoop_pure_fold (f : Option α → Option β) (g : Option β → ρ → ρ) :
    ∀ (items : List (Option α)) (init : ρ),
      seqLoop (fun x => (Except.ok (f x) : Except ε (Option β)))
        (fun v r => .ok (g v r, false)) items init =
        (.ok (items.foldl (fun r x => g (f x) r) init),
         List.replicate items.length .update) := by
  intro items
  induction items with
  | nil => intro init; rfl
  | cons x xs ih =>
    intro init
    simp [seqLoop, ih, List.replicate_succ]

theorem countP_none_replicate (n : ℕ) :
    (List.replicate n (none : Option α)).countP Option.isNone = n := by
  induction n with
  | zero => rfl
  | succ k ih => simp [List.replicate_succ, List.countP_cons, ih]

/-- Is this event the closing of the progress bar? -/
def Ev.isClose {α : Type} : Ev α → Bool
  | .closeProgress => true
  | _ => false

theorem finish_parallel_countP_close (n : ℕ) :
    (@finish_parallel α n).countP Ev.isClose = 1 := by
  rw [finish_parallel, List.countP_append]
  have h2 : (List.replicate n (Ev.terminate : Ev α)).countP Ev.isClose = 0 := by
    rw [List.countP_eq_zero]
    intro x hmem
    rw [List.eq_of_mem_replicate hmem]
    simp [Ev.isClose]
  rw [h2]
  rfl

end MoreHelpers

/-!
## Concrete instances used by the witnesses
-/

/-- Concrete compute: square the item, raising on the item `2`. -/
def computeSqFail : Option ℕ → Except String (Option ℕ) := fun x =>
  match x with
  | some 2 => .error "boom"
  | some a => .ok (some (a * a))
  | none => .ok none

/-- Concrete reducer: running sum, never raising, never short-circuiting. -/
def sumReduce : Option ℕ → ℕ → Except String (ℕ × Bool) := fun v r =>
  .ok (r + v.getD 0, false)

/-- Concrete short-circuiting reducer: running sum, setting the done flag
once the accumulator reaches 6. -/
def sumReduceStop : Option ℕ → ℕ → Except String (ℕ × Bool) := fun v r =>
  .ok (r + v.getD 0, decide (6 ≤ r + v.getD 0))

/-- Concrete compute returning Python `None` for the item 0 and echoing
other items. -/
def computeNoneAt0 : Option ℕ → Except String (Option ℕ) := fun x =>
  match x with
  | some 0 => .ok none
  | some a => .ok (some a)
  | none => .ok none

/-!
## The claims
-/

/-- C3: `get_num_processes`, as a pure function of the configured signed
count and the available core count, rejects a configured value of zero,
rejects a value exceeding the available count, resolves a negative value to
`available + configured + 1` (rejecting it when that is not positive),
returns a value in `[1, available]` unchanged, satisfies the concrete table
for `available = 8`, and every non-error return is a positive integer not
exceeding the available count. -/
theorem claim_C3 (n c : Int) :
    (get_num_processes 0 c =
      .error "Invalid NUMBER_OF_CORES; value may not be 0.") ∧
    (0 ≤ c → c < n → get_num_processes n c =
      .error "Invalid NUMBER_OF_CORES; value must be less than or equal to the available number of cores.") ∧
    (n < 0 → 0 < c + n + 1 → get_num_processes n c = .ok (c + n + 1)) ∧
    (n < 0 → n ≤ c → c + n + 1 ≤ 0 → get_num_processes n c =
      .error "Invalid NUMBER_OF_CORES; negative value is too negative.") ∧
    (0 < n → n ≤ c → get_num_processes n c = .ok n) ∧
    (get_num_processes 4 8 = .ok 4 ∧
      get_num_processes 0 8 =
        .error "Invalid NUMBER_OF_CORES; value may not be 0." ∧
      get_num_processes 9 8 =
        .error "Invalid NUMBER_OF_CORES; value must be less than or equal to the available number of cores." ∧
      get_num_processes (-1) 8 = .ok 8 ∧
      get_num_processes (-8) 8 = .ok 1 ∧
      get_num_processes (-9) 8 =
        .error "Invalid NUMBER_OF_CORES; negative value is too negative.") ∧
    (∀ m k r : Int, get_num_processes m k = .ok r → 0 < r ∧ r ≤ k) := by
  refine ⟨by simp [get_num_processes], ?_, ?_, ?_, ?_,
    ⟨rfl, rfl, rfl, rfl, rfl, rfl⟩, ?_⟩
  · intro h1 h2
    simp only [get_num_processes]
    rw [if_neg (by omega : ¬(n = 0)), if_pos (by omega : n > c)]
  · intro h1 h2
    simp only [get_num_processes]
    rw [if_neg (by omega : ¬(n = 0)), if_neg (by omega : ¬(n > c)),
      if_pos h1, if_neg (by omega : ¬(c + n + 1 ≤ 0))]
  · intro h1 h2 h3
    simp only [get_num_processes]
    rw [if_neg (by omega : ¬(n = 0)), if_neg (by omega : ¬(n > c)),
      if_pos h1, if_pos h3]
  · intro h1 h2
    simp only [get_num_processes]
    rw [if_neg (by omega : ¬(n = 0)), if_neg (by omega : ¬(n > c)),
      if_neg (by omega : ¬(n < 0))]
  · intro m k r h
    simp only [get_num_processes] at h
    split_ifs at h with h1 h2 h3 h4
    · simp only [Except.ok.injEq] at h
      omega
    · simp only [Except.ok.injEq] at h
      omega

theorem claim_C3_witness :
    get_num_processes 9 8 =
      .error "Invalid NUMBER_OF_CORES; value must be less than or equal to the available number of cores." ∧
    get_num_processes (-3) 8 = .ok (8 + (-3) + 1) ∧
    get_num_processes (-9) 8 =
      .error "Invalid NUMBER_OF_CORES; negative value is too negative." ∧
    get_num_processes 2 8 = .ok 2 ∧
    (0 < (5 : Int) ∧ (5 : Int) ≤ 8) :=
  ⟨(claim_C3 9 8).2.1 (by norm_num) (by norm_num),
   (claim_C3 (-3) 8).2.2.1 (by norm_num) (by norm_num),
   (claim_C3 (-9) 8).2.2.2.1 (by norm_num) (by norm_num) (by norm_num),
   (claim_C3 2 8).2.2.2.2.1 (by norm_num) (by norm_num),
   (claim_C3 0 0).2.2.2.2.2.2 5 8 5 rfl⟩

/-- C7: the sequential run is a left fold: starting from the empty result
it applies compute then the reducer to each item in order, emitting one
progress update per reduced item and one close at the end, and returns the
accumulated result; concretely, squares of `[1,2,3,4]` summed give 30. -/
theorem claim_C7 {α β ρ : Type} (f : Option α → Option β) (g : Option β → ρ → ρ)
    (items : List (Option α)) (init : ρ) :
    run_sequential (fun x => (Except.ok (f x) : Except String (Option β)))
        (fun v r => .ok (g v r, false)) init items =
      (.ok (items.foldl (fun r x => g (f x) r) init),
       List.replicate items.length .update ++ [.closeProgress]) ∧
    run_sequential
        (fun x => (Except.ok (some ((x.getD 0) ^ 2)) : Except String (Option ℕ)))
        (fun v r => .ok (r + v.getD 0, false)) 0
        [some 1, some 2, some 3, some 4] =
      (.ok 30, [.update, .update, .update, .update, .closeProgress]) := by
  constructor
  · simp [run_sequential, seqLoop_pure_fold]
  · decide

/-- C5: the worker loop sends the pill and terminates normally on receiving
the sentinel; on a successful compute it sends the result and continues; and
when compute raises after a prefix of successes, its output is the successes
followed by exactly one `ExceptionWrapper` (holding the original exception
and its captured traceback) — one failure envelope, placed last, and no
completion pill (provided the successes are not `None` values). -/
theorem claim_C5 {α β ε τ : Type} (compute : Option α → Except ε (Option β))
    (tbcap : ε → τ) (a : α) (v : Option β) (e : ε)
    (rest : List (Option α)) (items : List α) :
    (worker compute tbcap (none :: rest) = [.pill]) ∧
    (compute (some a) = .ok v →
      worker compute tbcap (some a :: rest) =
        .ofVal v :: worker compute tbcap rest) ∧
    ((∀ x ∈ items, ∃ b : β, compute (some x) = .ok (some b)) →
      compute (some a) = .error e →
      worker compute tbcap (items.map some ++ some a :: rest) =
        (items.map fun x => envOf compute tbcap (some x)) ++
          [.exc ⟨e, tbcap e⟩] ∧
      (worker compute tbcap (items.map some ++ some a :: rest)).countP
        QVal.isExc = 1 ∧
      QVal.pill ∉ worker compute tbcap (items.map some ++ some a :: rest)) := by
  refine ⟨rfl, ?_, ?_⟩
  · intro h
    simp [worker, h]
  · intro hok hfail
    have hw := worker_one_failure compute tbcap a e rest hfail items hok
    have hvals := vals_of_pre compute tbcap items hok
    refine ⟨hw, ?_, ?_⟩
    · rw [hw, List.countP_append]
      have h0 : (items.map fun x => envOf compute tbcap (some x)).countP
          QVal.isExc = 0 := by
        rw [List.countP_eq_zero]
        intro x hx
        obtain ⟨b, rfl⟩ := hvals x hx
        simp [QVal.isExc]
      rw [h0]
      rfl
    · rw [hw]
      intro hmem
      rw [List.mem_append] at hmem
      rcases hmem with hmem | hmem
      · obtain ⟨b, hb⟩ := hvals _ hmem
        simp at hb
      · simp at hmem

theorem claim_C5_witness :
    worker computeSqFail (fun _ => ()) (none :: [some 7]) = [.pill] ∧
    worker computeSqFail (fun _ => ()) (some 3 :: [some 7]) =
      .ofVal (some 9) :: worker computeSqFail (fun _ => ()) [some 7] ∧
    worker computeSqFail (fun _ => ())
        ([1, 3].map some ++ some 2 :: [some 7]) =
      ([1, 3].map fun x => envOf computeSqFail (fun _ => ()) (some x)) ++
        [.exc ⟨"boom", ()⟩] ∧
    (worker computeSqFail (fun _ => ())
        ([1, 3].map some ++ some 2 :: [some 7])).countP QVal.isExc = 1 ∧
    QVal.pill ∉ worker computeSqFail (fun _ => ())
        ([1, 3].map some ++ some 2 :: [some 7]) := by
  have hA := claim_C5 computeSqFail (fun _ => ()) 3 (some 9) "boom" [some 7] []
  have hB := claim_C5 computeSqFail (fun _ => ()) 2 (some 9) "boom" [some 7] [1, 3]
  have h3 := hB.2.2 (by
    intro x hx
    simp only [List.mem_cons, List.not_mem_nil, or_false] at hx
    rcases hx with rfl | rfl
    · exact ⟨1, rfl⟩
    · exact ⟨9, rfl⟩)
    rfl
  exact ⟨hA.1, hA.2.1 rfl, h3.1, h3.2.1, h3.2.2⟩

/-- C9: the sentinel (`POISON_PILL`) is the value `None`, not a value
distinguished from all data: a worker that pulls a `None` occurring in the
input sequence treats it as end-of-work (nothing after it is read) and stops;
a compute that *returns* `None` makes the worker send the very sentinel
value as its "result"; and the reduction loop treats such an envelope as a
worker-completion sentinel — when one worker is counted live, the loop exits
returning the accumulator untouched instead of reducing the value. -/
theorem claim_C9 {α β ρ ε τ : Type} (compute : Option α → Except ε (Option β))
    (tbcap : ε → τ) (pr : Option β → ρ → Except ε (ρ × Bool)) (a : α)
    (rest l₁ l₂ : List (Option α)) (erest : List (QVal β ε τ))
    (st : LoopSt α ρ) :
    ((POISON_PILL : Option α) = none) ∧
    (worker compute tbcap (l₁ ++ none :: l₂) =
      worker compute tbcap (l₁ ++ [none])) ∧
    (compute (some a) = .ok none →
      worker compute tbcap (some a :: rest) =
        .pill :: worker compute tbcap rest) ∧
    ((QVal.ofVal (none : Option β) : QVal β ε τ) = .pill) ∧
    (st.done = false → st.num_processes = 1 →
      parLoop pr (QVal.ofVal (none : Option β) :: erest) st =
        (.finished st.acc, { (maybe_put_task st).1 with num_processes := 0 },
         erest, (maybe_put_task st).2)) ∧
    (st.done = false → st.num_processes - 1 ≠ 0 →
      parLoop pr (QVal.ofVal (none : Option β) :: erest) st =
        (let st2 : LoopSt α ρ :=
          { (maybe_put_task st).1 with
              num_processes := st.num_processes - 1 }
         let q := parLoop pr erest st2
         (q.1, q.2.1, q.2.2.1, (maybe_put_task st).2 ++ q.2.2.2))) := by
  refine ⟨rfl, worker_stops_at_none compute tbcap l₁ l₂, ?_, rfl, ?_, ?_⟩
  · intro h
    simp [worker, h, QVal.ofVal]
  · intro hd hnum
    exact parLoop_pill_exit pr erest st hd (by omega)
  · intro hd hnum
    exact parLoop_pill_go pr erest st hd hnum

theorem claim_C9_witness :
    ((POISON_PILL : Option ℕ) = none) ∧
    (worker computeNoneAt0 (fun _ => ()) ([some 3] ++ none :: [some 5]) =
      worker computeNoneAt0 (fun _ => ()) ([some 3] ++ [none])) ∧
    (worker computeNoneAt0 (fun _ => ()) (some 0 :: [none]) =
      .pill :: worker computeNoneAt0 (fun _ => ()) [none]) ∧
    ((QVal.ofVal (none : Option ℕ) : QVal ℕ String Unit) = .pill) ∧
    (parLoop sumReduce
        ((QVal.ofVal (none : Option ℕ) :: []) : List (QVal ℕ String Unit))
        (⟨[], 1, 0, false⟩ : LoopSt ℕ ℕ) =
      (.finished 0,
       { (maybe_put_task (⟨[], 1, 0, false⟩ : LoopSt ℕ ℕ)).1 with
           num_processes := 0 },
       [], (maybe_put_task (⟨[], 1, 0, false⟩ : LoopSt ℕ ℕ)).2)) := by
  have h := claim_C9 computeNoneAt0 (fun _ => ()) sumReduce 0 [none] [some 3]
    [some 5] ([] : List (QVal ℕ String Unit)) (⟨[], 1, 0, false⟩ : LoopSt ℕ ℕ)
  exact ⟨h.1, h.2.1, h.2.2.1 rfl, h.2.2.2.1, h.2.2.2.2.1 rfl rfl⟩

/-- C10: in the parallel reduction loop, `maybe_put_task` is a no-op (not
an error) when the pending task iterator is exhausted, releases exactly the
head pending element otherwise, and is performed for every envelope received
from the result queue — completion pills, failure wrappers and ordinary
results alike — before the envelope is examined: every branch of the loop
body proceeds from the post-release state and its events start with the
release's put. -/
theorem claim_C10 {α β ρ ε τ : Type}
    (pr : Option β → ρ → Except ε (ρ × Bool)) (st : LoopSt α ρ)
    (t : Option α) (ts : List (Option α)) (w : ExceptionWrapper ε τ)
    (v : β) (acc2 : ρ) (d2 : Bool) (e : ε) (rest : List (QVal β ε τ)) :
    (st.tasks = [] → maybe_put_task st = (st, [])) ∧
    (st.tasks = t :: ts →
      maybe_put_task st = ({ st with tasks := ts }, [.put t])) ∧
    (st.done = false →
      parLoop pr (.exc w :: rest) st =
        (.failed w.reraise, (maybe_put_task st).1, rest,
         (maybe_put_task st).2)) ∧
    (st.done = false → st.num_processes - 1 = 0 →
      parLoop pr (.pill :: rest) st =
        (.finished st.acc, { (maybe_put_task st).1 with num_processes := 0 },
         rest, (maybe_put_task st).2)) ∧
    (st.done = false → st.num_processes - 1 ≠ 0 →
      parLoop pr (.pill :: rest) st =
        (let st2 : LoopSt α ρ :=
          { (maybe_put_task st).1 with
              num_processes := st.num_processes - 1 }
         let q := parLoop pr rest st2
         (q.1, q.2.1, q.2.2.1, (maybe_put_task st).2 ++ q.2.2.2))) ∧
    (st.done = false → pr (some v) st.acc = .error e →
      parLoop pr (.val v :: rest) st =
        (.failed e, (maybe_put_task st).1, rest, (maybe_put_task st).2)) ∧
    (st.done = false → pr (some v) st.acc = .ok (acc2, d2) →
      parLoop pr (.val v :: rest) st =
        (let st2 : LoopSt α ρ :=
          { (maybe_put_task st).1 with acc := acc2, done := d2 }
         let q := parLoop pr rest st2
         (q.1, q.2.1, q.2.2.1,
          (maybe_put_task st).2 ++ [.update] ++ q.2.2.2))) := by
  refine ⟨?_, ?_, ?_, ?_, ?_, ?_, ?_⟩
  · intro h
    simp [maybe_put_task, h]
  · intro h
    simp [maybe_put_task, h]
  · intro hd
    exact parLoop_exc pr w rest st hd
  · intro hd hz
    exact parLoop_pill_exit pr rest st hd hz
  · intro hd hz
    exact parLoop_pill_go pr rest st hd hz
  · intro hd hpr
    exact parLoop_val_err pr v e rest st hd hpr
  · intro hd hpr
    exact parLoop_val_ok pr v acc2 d2 rest st hd hpr

theorem claim_C10_witness :
    (maybe_put_task (⟨[], 2, 0, false⟩ : LoopSt ℕ ℕ) =
      ((⟨[], 2, 0, false⟩ : LoopSt ℕ ℕ), [])) ∧
    (maybe_put_task (⟨[some 4, none], 2, 0, false⟩ : LoopSt ℕ ℕ) =
      ({ (⟨[some 4, none], 2, 0, false⟩ : LoopSt ℕ ℕ) with
          tasks := [none] }, [.put (some 4)])) ∧
    (parLoop sumReduce
        ((.exc ⟨"boom", ()⟩ : QVal ℕ String Unit) :: [])
        (⟨[some 4, none], 2, 0, false⟩ : LoopSt ℕ ℕ) =
      (.failed "boom",
       (maybe_put_task (⟨[some 4, none], 2, 0, false⟩ : LoopSt ℕ ℕ)).1, [],
       (maybe_put_task (⟨[some 4, none], 2, 0, false⟩ : LoopSt ℕ ℕ)).2)) ∧
    (parLoop sumReduce ((.pill : QVal ℕ String Unit) :: [])
        (⟨[some 4, none], 1, 0, false⟩ : LoopSt ℕ ℕ) =
      (.finished 0,
       { (maybe_put_task (⟨[some 4, none], 1, 0, false⟩ : LoopSt ℕ ℕ)).1 with
           num_processes := 0 },
       [], (maybe_put_task (⟨[some 4, none], 1, 0, false⟩ : LoopSt ℕ ℕ)).2)) := by
  have h1 := claim_C10 sumReduce (⟨[], 2, 0, false⟩ : LoopSt ℕ ℕ)
    (some 4) [none] (⟨"boom", ()⟩ : ExceptionWrapper String Unit) 0 0 false
    "boom" []
  have h2 := claim_C10 sumReduce (⟨[some 4, none], 2, 0, false⟩ : LoopSt ℕ ℕ)
    (some 4) [none] (⟨"boom", ()⟩ : ExceptionWrapper String Unit) 0 0 false
    "boom" []
  have h3 := claim_C10 sumReduce (⟨[some 4, none], 1, 0, false⟩ : LoopSt ℕ ℕ)
    (some 4) [none] (⟨"boom", ()⟩ : ExceptionWrapper String Unit) 0 0 false
    "boom" []
  exact ⟨h1.1 rfl, h2.2.1 rfl, h2.2.2.1 rfl, h3.2.2.2.1 rfl rfl⟩

/-- C6: when the reducer sets the short-circuit flag, the computation stops:
sequentially, the item whose reduction set the flag is the last one
processed — the result does not depend on the remaining items; in the
parallel loop, the iteration that set the flag is the last — the remaining
envelopes are left unconsumed and the live-worker count is untouched (some
workers may remain active); and no schedule of the parallel machine runs
forever. -/
theorem claim_C6 {α β ρ ε τ : Type} (compute : Option α → Except ε (Option β))
    (tbcap : ε → τ) (pr : Option β → ρ → Except ε (ρ × Bool))
    (x : Option α) (xs : List (Option α)) (vv : Option β) (v : β)
    (init acc2 : ρ) (st : LoopSt α ρ) (rest : List (QVal β ε τ)) :
    (compute x = .ok vv → pr vv init = .ok (acc2, true) →
      run_sequential compute pr init (x :: xs) =
        (.ok acc2, [.update, .closeProgress])) ∧
    (st.done = false → 0 < st.num_processes →
      pr (some v) st.acc = .ok (acc2, true) →
      (parLoop pr (.val v :: rest) st).1 = .finished acc2 ∧
      (parLoop pr (.val v :: rest) st).2.2.1 = rest ∧
      (parLoop pr (.val v :: rest) st).2.1.num_processes = st.num_processes) ∧
    (∀ g : ℕ → MState α β ρ ε τ,
      (∀ n, MStep compute tbcap pr (g n) (g (n + 1))) → False) := by
  refine ⟨?_, ?_, fun g hg => no_infinite_run g hg⟩
  · intro hc hp
    simp [run_sequential, seqLoop, hc, hp]
  · intro hd hnum hpr
    have hval := parLoop_val_ok pr v acc2 true rest st hd hpr
    have hrec := parLoop_done pr rest
      ({ (maybe_put_task st).1 with acc := acc2, done := true } : LoopSt α ρ) rfl
    simp only [hrec, List.append_nil] at hval
    rw [hval]
    refine ⟨rfl, rfl, ?_⟩
    simp [maybe_put_task_num]

theorem claim_C6_witness :
    run_sequential computeSqFail sumReduceStop 4 (some 3 :: [some 9]) =
      (.ok 13, [.update, .closeProgress]) ∧
    (parLoop sumReduceStop ((.val 4 : QVal ℕ String Unit) :: [.pill])
        (⟨[], 2, 5, false⟩ : LoopSt ℕ ℕ)).1 = .finished 9 ∧
    (parLoop sumReduceStop ((.val 4 : QVal ℕ String Unit) :: [.pill])
        (⟨[], 2, 5, false⟩ : LoopSt ℕ ℕ)).2.2.1 = [.pill] ∧
    (parLoop sumReduceStop ((.val 4 : QVal ℕ String Unit) :: [.pill])
        (⟨[], 2, 5, false⟩ : LoopSt ℕ ℕ)).2.1.num_processes = 2 ∧
    (∀ g : ℕ → MState ℕ ℕ ℕ String Unit,
      (∀ n, MStep computeSqFail (fun _ => ()) sumReduceStop (g n) (g (n + 1))) →
      False) := by
  have hA := claim_C6 computeSqFail (fun _ => ()) sumReduceStop (some 3)
    [some 9] (some 9) 4 4 13 (⟨[], 2, 5, false⟩ : LoopSt ℕ ℕ)
    ([.pill] : List (QVal ℕ String Unit))
  have hB := claim_C6 computeSqFail (fun _ => ()) sumReduceStop (some 3)
    [some 9] (some 9) 4 5 9 (⟨[], 2, 5, false⟩ : LoopSt ℕ ℕ)
    ([.pill] : List (QVal ℕ String Unit))
  have hpar := hB.2.1 rfl (by norm_num) rfl
  exact ⟨hA.1 rfl rfl, hpar.1, hpar.2.1, hpar.2.2, hA.2.2⟩

/-- C1 counterexample: on a run whose loop receives a worker failure, the
failure is re-raised with *no* teardown step performed — the event trace
contains no worker termination, no log-channel sentinel and no
progress-reporter close, contradicting the claim that the teardown sequence
executes on every exit path (and that the failure is re-raised only after
teardown step 4). -/
theorem claim_C1_counterexample :
    @run_parallel ℕ ℕ ℕ String Unit sumReduce 0 [] 1 4 [.exc ⟨"boom", ()⟩] =
      (.err "boom", [Ev.put none]) ∧
    Ev.terminate ∉ [Ev.put (none : Option ℕ)] ∧
    Ev.logPill ∉ [Ev.put (none : Option ℕ)] ∧
    Ev.closeProgress ∉ [Ev.put (none : Option ℕ)] := by
  exact ⟨rfl, by decide, by decide, by decide⟩

/-- C1 amended: on the exit paths on which the loop returns normally
(completion and short-circuit), `run_parallel` executes the full teardown
sequence of `finish_parallel`, in its fixed order — log-channel sentinel and
log-thread join, closing the log/task/result channels, closing the progress
reporter, then terminating every worker; but when the run carries a worker
failure, the failure is re-raised from inside the loop *before* any teardown
step: the trace of a failed run contains no teardown event at all. -/
theorem claim_C1_amended {α β ρ ε τ : Type}
    (pr : Option β → ρ → Except ε (ρ × Bool)) (init : ρ)
    (iterable : List (Option α)) (N qMax : ℕ) (s : List (QVal β ε τ))
    (acc : ρ) (e : ε) :
    ((parLoop pr s ⟨(initTasks qMax iterable N).2, N, init, false⟩).1 =
        .finished acc →
      run_parallel pr init iterable N qMax s =
        (.ok acc,
         (initTasks qMax iterable N).1.map .put ++
           (parLoop pr s
             ⟨(initTasks qMax iterable N).2, N, init, false⟩).2.2.2 ++
           finish_parallel N)) ∧
    (@finish_parallel α N =
      [.logPill, .logJoin, .closeLogQ, .closeInQ, .closeOutQ, .closeProgress] ++
        List.replicate N .terminate) ∧
    ((parLoop pr s ⟨(initTasks qMax iterable N).2, N, init, false⟩).1 =
        .failed e →
      run_parallel pr init iterable N qMax s =
        (.err e,
         (initTasks qMax iterable N).1.map .put ++
           (parLoop pr s
             ⟨(initTasks qMax iterable N).2, N, init, false⟩).2.2.2) ∧
      Ev.terminate ∉ (run_parallel pr init iterable N qMax s).2 ∧
      Ev.logPill ∉ (run_parallel pr init iterable N qMax s).2 ∧
      Ev.logJoin ∉ (run_parallel pr init iterable N qMax s).2 ∧
      Ev.closeProgress ∉ (run_parallel pr init iterable N qMax s).2) := by
  refine ⟨?_, rfl, ?_⟩
  · intro h
    simp [run_parallel, h]
  · intro h
    have hrun : run_parallel pr init iterable N qMax s =
        (.err e, (initTasks qMax iterable N).1.map .put ++
          (parLoop pr s
            ⟨(initTasks qMax iterable N).2, N, init, false⟩).2.2.2) := by
      simp [run_parallel, h]
    refine ⟨hrun, ?_, ?_, ?_, ?_⟩ <;>
    · rw [hrun]
      intro hx
      simp only [List.mem_append] at hx
      rcases hx with hx | hx
      · rw [List.mem_map] at hx
        obtain ⟨t, _, ht⟩ := hx
        simp at ht
      · rcases parLoop_events_shape pr s _ _ hx with h' | ⟨t, h'⟩ <;> simp at h'

theorem claim_C1_witness :
    ((parLoop sumReduce [(.val 1 : QVal ℕ String Unit), .pill]
        (⟨(initTasks 4 [some 1] 1).2, 1, 0, false⟩ : LoopSt ℕ ℕ)).1 =
      .finished 1) ∧
    run_parallel sumReduce 0 [some 1] 1 4
        [(.val 1 : QVal ℕ String Unit), .pill] =
      (.ok 1,
       (initTasks 4 ([some 1] : List (Option ℕ)) 1).1.map .put ++
         (parLoop sumReduce [(.val 1 : QVal ℕ String Unit), .pill]
           (⟨(initTasks 4 [some 1] 1).2, 1, 0, false⟩ : LoopSt ℕ ℕ)).2.2.2 ++
         finish_parallel 1) ∧
    ((parLoop sumReduce [(.exc ⟨"x", ()⟩ : QVal ℕ String Unit)]
        (⟨(initTasks 4 [some 1] 1).2, 1, 0, false⟩ : LoopSt ℕ ℕ)).1 =
      .failed "x") ∧
    Ev.terminate ∉ (run_parallel sumReduce 0 [some 1] 1 4
      [(.exc ⟨"x", ()⟩ : QVal ℕ String Unit)]).2 ∧
    Ev.closeProgress ∉ (run_parallel sumReduce 0 [some 1] 1 4
      [(.exc ⟨"x", ()⟩ : QVal ℕ String Unit)]).2 :=
  ⟨rfl,
   (claim_C1_amended sumReduce 0 [some 1] 1 4 [.val 1, .pill] 1 "x").1 rfl,
   rfl,
   ((claim_C1_amended sumReduce 0 [some 1] 1 4 [.exc ⟨"x", ()⟩] 1 "x").2.2
     rfl).2.1,
   ((claim_C1_amended sumReduce 0 [some 1] 1 4 [.exc ⟨"x", ()⟩] 1 "x").2.2
     rfl).2.2.2.2⟩

theorem countP_close_map_put {α : Type} (l : List (Option α)) :
    (l.map (Ev.put : Option α → Ev α)).countP Ev.isClose = 0 := by
  rw [List.countP_eq_zero]
  intro x hx
  rw [List.mem_map] at hx
  obtain ⟨t, _, rfl⟩ := hx
  simp [Ev.isClose]

theorem countP_close_parLoop {α β ρ ε τ : Type}
    (pr : Option β → ρ → Except ε (ρ × Bool)) (s : List (QVal β ε τ))
    (st : LoopSt α ρ) :
    ((parLoop pr s st).2.2.2).countP Ev.isClose = 0 := by
  rw [List.countP_eq_zero]
  intro x hx
  rcases parLoop_events_shape pr s st x hx with rfl | ⟨t, rfl⟩ <;>
    simp [Ev.isClose]

theorem countP_close_seqLoop {α β ρ ε : Type}
    (compute : Option α → Except ε (Option β))
    (pr : Option β → ρ → Except ε (ρ × Bool)) (items : List (Option α))
    (acc : ρ) :
    ((seqLoop compute pr items acc).2).countP Ev.isClose = 0 := by
  rw [List.countP_eq_zero]
  intro x hx
  rw [seqLoop_events pr compute items acc x hx]
  simp [Ev.isClose]

/-- C8 counterexample: a sequential run whose compute raises exits without
ever invoking the progress reporter's close — zero close events, not one,
contradicting the claim that close is invoked exactly once on every exit
path. -/
theorem claim_C8_counterexample :
    @run_sequential ℕ ℕ ℕ String (fun _ => .error "boom") sumReduce 0
        [some 1] =
      (.err "boom", []) ∧
    (@run_sequential ℕ ℕ ℕ String (fun _ => .error "boom") sumReduce 0
        [some 1]).2.countP Ev.isClose = 0 :=
  ⟨rfl, rfl⟩

/-- C8 amended: the progress reporter's close is invoked exactly once on the
exit paths on which the run returns a result (normal completion and
short-circuit), in both sequential and parallel modes; but on failure paths
— an exception propagating out of the sequential loop, or a worker
failure/reducer exception propagating out of the parallel loop — it is never
invoked. -/
theorem claim_C8_amended {α β ρ ε τ : Type}
    (compute : Option α → Except ε (Option β))
    (pr : Option β → ρ → Except ε (ρ × Bool)) (init : ρ)
    (items iterable : List (Option α)) (N qMax : ℕ) (s : List (QVal β ε τ))
    (r acc : ρ) (e e' : ε) :
    ((seqLoop compute pr items init).1 = .ok r →
      (run_sequential compute pr init items).2.countP Ev.isClose = 1) ∧
    ((seqLoop compute pr items init).1 = .error e →
      (run_sequential compute pr init items).2.countP Ev.isClose = 0) ∧
    ((parLoop pr s ⟨(initTasks qMax iterable N).2, N, init, false⟩).1 =
        .finished acc →
      (run_parallel pr init iterable N qMax s).2.countP Ev.isClose = 1) ∧
    ((parLoop pr s ⟨(initTasks qMax iterable N).2, N, init, false⟩).1 =
        .failed e' →
      (run_parallel pr init iterable N qMax s).2.countP Ev.isClose = 0) := by
  refine ⟨?_, ?_, ?_, ?_⟩
  · intro h
    rcases hsl : seqLoop compute pr items init with ⟨out, evs⟩
    rw [hsl] at h
    simp only at h
    subst h
    have hevs : evs.countP Ev.isClose = 0 := by
      have := countP_close_seqLoop compute pr items init
      rw [hsl] at this
      exact this
    simp only [run_sequential, hsl]
    rw [List.countP_append, hevs]
    rfl
  · intro h
    rcases hsl : seqLoop compute pr items init with ⟨out, evs⟩
    rw [hsl] at h
    simp only at h
    subst h
    have hevs : evs.countP Ev.isClose = 0 := by
      have := countP_close_seqLoop compute pr items init
      rw [hsl] at this
      exact this
    simp only [run_sequential, hsl]
    exact hevs
  · intro h
    simp only [run_parallel, h]
    rw [List.countP_append, List.countP_append, countP_close_map_put,
      countP_close_parLoop, finish_parallel_countP_close]
  · intro h
    simp only [run_parallel, h]
    rw [List.countP_append, countP_close_map_put, countP_close_parLoop]

theorem claim_C8_witness :
    ((seqLoop computeSqFail sumReduce [some 1] 0).1 = .ok 1) ∧
    (run_sequential computeSqFail sumReduce 0 [some 1]).2.countP
      Ev.isClose = 1 ∧
    ((seqLoop computeSqFail sumReduce [some 2] 0).1 = .error "boom") ∧
    (run_sequential computeSqFail sumReduce 0 [some 2]).2.countP
      Ev.isClose = 0 ∧
    ((parLoop sumReduce ([.pill] : List (QVal ℕ String Unit))
        (⟨(initTasks 4 [] 1).2, 1, 0, false⟩ : LoopSt ℕ ℕ)).1 =
      .finished 0) ∧
    (run_parallel sumReduce 0 ([] : List (Option ℕ)) 1 4
      ([.pill] : List (QVal ℕ String Unit))).2.countP Ev.isClose = 1 ∧
    ((parLoop sumReduce ([.exc ⟨"x", ()⟩] : List (QVal ℕ String Unit))
        (⟨(initTasks 4 [] 1).2, 1, 0, false⟩ : LoopSt ℕ ℕ)).1 =
      .failed "x") ∧
    (run_parallel sumReduce 0 ([] : List (Option ℕ)) 1 4
      ([.exc ⟨"x", ()⟩] : List (QVal ℕ String Unit))).2.countP Ev.isClose = 0 := by
  have h1 := claim_C8_amended computeSqFail sumReduce 0 [some 1] [] 1 4
    ([.pill] : List (QVal ℕ String Unit)) 1 0 "boom" "x"
  have h2 := claim_C8_amended computeSqFail sumReduce 0 [some 2] [] 1 4
    ([.exc ⟨"x", ()⟩] : List (QVal ℕ String Unit)) 1 0 "boom" "x"
  exact ⟨rfl, h1.1 rfl, rfl, h2.2.1 rfl, rfl, h1.2.2.1 rfl, rfl,
    h2.2.2.2 rfl⟩

/-- C4 counterexample: when the task stream fits under the capacity ceiling
— here a one-item input with one worker, stream length 2 — the initial
priming (`islice(tasks, Q_MAX_SIZE)`) enqueues the *whole* stream and leaves
nothing pending, contradicting the claim's "never the whole stream". -/
theorem claim_C4_counterexample :
    (initTasks Q_MAX_SIZE [some (1 : ℕ)] 1).1 = taskStream [some 1] 1 ∧
    (initTasks Q_MAX_SIZE [some (1 : ℕ)] 1).2 = [] := by
  constructor
  · show (taskStream [some 1] 1).take Q_MAX_SIZE = taskStream [some 1] 1
    apply List.take_of_length_le
    simp only [taskStream, POISON_PILL, List.length_append,
      List.length_replicate, List.length_cons, List.length_nil, Q_MAX_SIZE]
    omega
  · show (taskStream [some 1] 1).drop Q_MAX_SIZE = []
    apply List.drop_eq_nil_of_le
    simp only [taskStream, POISON_PILL, List.length_append,
      List.length_replicate, List.length_cons, List.length_nil, Q_MAX_SIZE]
    omega

/-- C4 amended: the logical task stream is the input sequence followed by
exactly one sentinel per worker (`numProcesses` sentinels in total, given
the input itself holds no `None`); the initial priming enqueues the first
`min(qMax, length)` elements of this stream — never more than the capacity
ceiling `qMax`, and the whole stream exactly when it fits under the ceiling;
thereafter each `maybe_put_task` releases at most one pending element; and
in every reachable state of a parallel run the task-queue occupancy is at
most `qMax`. -/
theorem claim_C4_amended {α β ρ ε τ : Type}
    (compute : Option α → Except ε (Option β)) (tbcap : ε → τ)
    (pr : Option β → ρ → Except ε (ρ × Bool))
    (iterable : List (Option α)) (N qMax : ℕ) (init : ρ)
    (st : LoopSt α ρ) (s : MState α β ρ ε τ) :
    (taskStream iterable N = iterable ++ List.replicate N POISON_PILL) ∧
    (iterable.countP Option.isNone = 0 →
      (taskStream iterable N).countP Option.isNone = N) ∧
    ((initTasks qMax iterable N).1 = (taskStream iterable N).take qMax) ∧
    ((initTasks qMax iterable N).1.length ≤ qMax) ∧
    ((taskStream iterable N).length ≤ qMax →
      (initTasks qMax iterable N).1 = taskStream iterable N) ∧
    ((maybe_put_task st).2.length ≤ 1) ∧
    (Reach compute tbcap pr iterable N qMax init s → s.inQ.length ≤ qMax) := by
  refine ⟨rfl, ?_, rfl, ?_, ?_, ?_, ?_⟩
  · intro h
    simp [taskStream, POISON_PILL, List.countP_append, countP_none_replicate, h]
  · show ((taskStream iterable N).take qMax).length ≤ qMax
    simp [List.length_take]
  · intro h
    show (taskStream iterable N).take qMax = _
    exact List.take_of_length_le h
  · rcases maybe_put_task_events st with h | ⟨t, h⟩ <;> simp [h]
  · intro hreach
    have hinv := inv_reach compute tbcap pr iterable N qMax init hreach
    have hle := hinv.len_le
    omega

theorem claim_C4_witness :
    (([some 5, some 6] : List (Option ℕ)).countP Option.isNone = 0) ∧
    (taskStream ([some 5, some 6] : List (Option ℕ)) 2).countP
      Option.isNone = 2 ∧
    (initTasks 3 ([some 5, some 6] : List (Option ℕ)) 2).1 =
      (taskStream [some 5, some 6] 2).take 3 ∧
    (initTasks 3 ([some 5, some 6] : List (Option ℕ)) 2).1.length ≤ 3 ∧
    ((taskStream ([some 5, some 6] : List (Option ℕ)) 2).length ≤ 10 ∧
      (initTasks 10 ([some 5, some 6] : List (Option ℕ)) 2).1 =
        taskStream [some 5, some 6] 2) ∧
    (maybe_put_task (⟨[some 5], 2, 0, false⟩ : LoopSt ℕ ℕ)).2.length ≤ 1 ∧
    (@initMState ℕ ℕ ℕ String Unit [some 5, some 6] 2 3 0).inQ.length ≤ 3 := by
  have h3 := claim_C4_amended computeSqFail (fun _ => ()) sumReduce
    [some 5, some 6] 2 3 0 (⟨[some 5], 2, 0, false⟩ : LoopSt ℕ ℕ)
    (initMState [some 5, some 6] 2 3 0)
  have h10 := claim_C4_amended computeSqFail (fun _ => ()) sumReduce
    [some 5, some 6] 2 10 0 (⟨[some 5], 2, 0, false⟩ : LoopSt ℕ ℕ)
    (initMState [some 5, some 6] 2 10 0)
  refine ⟨by decide, h3.2.1 (by decide), h3.2.2.1, h3.2.2.2.1,
    ⟨by decide, h10.2.2.2.2.1 (by decide)⟩, h3.2.2.2.2.2.1,
    h3.2.2.2.2.2.2 Relation.ReflTransGen.refl⟩

/-- C2: when compute raises exception `e` for exactly one item `a0` of the
input (here `pre ++ a0 :: post`, with every other item computing to an
ordinary value, and a reducer that neither raises nor short-circuits):
sequentially, `run` raises exactly `e`; the worker wraps `e` together with
its captured origin traceback in an `ExceptionWrapper`, whose `reraise`
yields the *original* exception, not a new one; in parallel, every maximal
schedule of the machine ends with the orchestrator aborted by that same
`e` — so the orchestrator's own control flow, fed the envelopes it
received, raises `e` — and no schedule runs forever.  Sequential and
parallel execution are thus failure-equivalent: both raise an error of the
same kind and message as the inline exception. -/
theorem claim_C2 {α β ρ ε τ : Type} (compute : Option α → Except ε (Option β))
    (tbcap : ε → τ) (pr : Option β → ρ → Except ε (ρ × Bool))
    (pre post : List α) (a0 : α) (e : ε) (init : ρ) (N qMax : ℕ)
    (HN : 1 ≤ N) (Hq : 1 ≤ qMax)
    (Hfail : compute (some a0) = .error e)
    (Hok : ∀ a ∈ pre ++ post, ∃ b : β, compute (some a) = .ok (some b))
    (Hpr : ∀ v r, ∃ r', pr v r = .ok (r', false)) :
    ((run_sequential compute pr init ((pre ++ a0 :: post).map some)).1 =
      .err e) ∧
    (envOf compute tbcap (some a0) = .exc ⟨e, tbcap e⟩) ∧
    ((ExceptionWrapper.mk e (tbcap e)).reraise = e) ∧
    (∀ s : MState α β ρ ε τ,
      Reach compute tbcap pr ((pre ++ a0 :: post).map some) N qMax init s →
      Stuck compute tbcap pr s →
      s.phase = .failedPhase e ∧
      (run_parallel pr init ((pre ++ a0 :: post).map some) N qMax
        s.recvd).1 = .err e) ∧
    (∀ g : ℕ → MState α β ρ ε τ,
      (∀ n, MStep compute tbcap pr (g n) (g (n + 1))) → False) := by
  have HokPre : ∀ a ∈ pre, ∃ b : β, compute (some a) = .ok (some b) :=
    fun a ha => Hok a (List.mem_append_left _ ha)
  refine ⟨?_, ?_, rfl, ?_, fun g hg => no_infinite_run g hg⟩
  · have hseq := seqLoop_one_failure compute pr post a0 e Hfail Hpr pre init
      HokPre
    simp only [List.map_append, List.map_cons] at hseq
    simp [run_sequential, hseq]
  · simp [envOf, Hfail]
  · intro s hreach hstuck
    have hph := stuck_phase_failed compute tbcap pr post a0 e pre N qMax init
      s HN Hq Hfail HokPre Hpr hreach hstuck
    refine ⟨hph, ?_⟩
    have hinv := inv_reach compute tbcap pr ((pre ++ a0 :: post).map some)
      N qMax init hreach
    have hreplay : s.recvd.foldl (phaseStep pr) (.looping N init) =
        .failedPhase e := by
      have h := hinv.phase_eq
      rw [replayPhase] at h
      rw [← h]
      exact hph
    exact run_parallel_err_of_replay pr e init ((pre ++ a0 :: post).map some)
      N qMax s.recvd hreplay

theorem claim_C2_witness :
    ((run_sequential computeSqFail sumReduce 0
        (([1] ++ 2 :: [3]).map some)).1 = .err "boom") ∧
    (envOf computeSqFail (fun _ => ()) (some 2) = .exc ⟨"boom", ()⟩) ∧
    ((ExceptionWrapper.mk "boom" ((fun _ : String => ()) "boom")).reraise =
      "boom") ∧
    (∀ s : MState ℕ ℕ ℕ String Unit,
      Reach computeSqFail (fun _ => ()) sumReduce (([1] ++ 2 :: [3]).map some)
        2 3 0 s →
      Stuck computeSqFail (fun _ => ()) sumReduce s →
      s.phase = .failedPhase "boom" ∧
      (run_parallel sumReduce 0 (([1] ++ 2 :: [3]).map some) 2 3
        s.recvd).1 = .err "boom") ∧
    (∀ g : ℕ → MState ℕ ℕ ℕ String Unit,
      (∀ n, MStep computeSqFail (fun _ => ()) sumReduce (g n) (g (n + 1))) →
      False) :=
  claim_C2 computeSqFail (fun _ => ()) sumReduce [1] [3] 2 "boom" 0 2 3
    (by norm_num) (by norm_num) rfl
    (by
      intro a ha
      simp only [List.cons_append, List.nil_append, List.mem_cons,
        List.not_mem_nil, or_false] at ha
      rcases ha with rfl | rfl
      · exact ⟨1, rfl⟩
      · exact ⟨9, rfl⟩)
    (fun v r => ⟨r + v.getD 0, rfl⟩)

end PyPhi
